import Mathlib

/-
Verification of core algorithms of the `emulators` repository: the in-memory
Bigtable fake (`bigtable/bttest`) and the GCS emulator (`storage/gcsemu`,
`storage/gcsutil`).

Byte strings (row keys, qualifiers, cell values) are modelled as `List Nat`
under the byte-lexicographic order (Mathlib's lexicographic `LinearOrder` on
lists); machine integers are modelled as `Int`/`Nat` with explicit wrap-around
(`% 2 ^ 64`) where Go's fixed-width arithmetic is observable.
-/
/-- Byte strings, e.g. row keys and cell values ([]byte in Go). -/
abbrev Bytes := List Nat

namespace Gcsemu

/-- Translated from normalizeBaseUrl in storage/gcsemu/filestore.go.  The
constant dontNeedUrls is the empty string. -/
def normalizeBaseUrl (baseUrl : String) : String :=
  if baseUrl = "" ∨ baseUrl = "https://storage.googleapis.com/" then
    "https://www.googleapis.com/"
  else if baseUrl = "http://storage.googleapis.com/" then
    "http://www.googleapis.com/"
  else
    baseUrl

/-- Translated from bucketUrl in storage/gcsemu/filestore.go. -/
def bucketUrl (baseUrl bucket : String) : String :=
  normalizeBaseUrl baseUrl ++ "storage/v1/b/" ++ bucket

/-- Translated from objectUrl in storage/gcsemu/filestore.go. -/
def objectUrl (baseUrl bucket filepath : String) : String :=
  normalizeBaseUrl baseUrl ++ "storage/v1/b/" ++ bucket ++ "/o/" ++ filepath

/-- The self-link and media-link fields set by initMetaWithUrls in
storage/gcsemu/filestore.go (the other fields it bakes are not modelled). -/
structure ObjectLinks where
  selfLink : String
  mediaLink : String
deriving Repr, DecidableEq

/-- Translated from initMetaWithUrls in storage/gcsemu/filestore.go,
restricted to the link fields. -/
def initMetaWithUrls (baseUrl bucket filename : String) : ObjectLinks :=
  { mediaLink := objectUrl baseUrl bucket filename ++ "?alt=media"
    selfLink := objectUrl baseUrl bucket filename }

end Gcsemu

namespace Gcsutil

/-- The standard base64 alphabet (RFC 4648), as used by Go's
base64.StdEncoding. -/
def b64Alphabet : List Char :=
  "ABCDEFGHIJKLMNOPQRSTUVWXYZabcdefghijklmnopqrstuvwxyz0123456789+/".toList

/-- Character of the standard base64 alphabet at a 6-bit index. -/
def b64Char (n : Nat) : Char := b64Alphabet.getD n '='

/-- Index of a character in the standard base64 alphabet, none if absent. -/
def b64Index (c : Char) : Option Nat := b64Alphabet.findIdx? (· = c)

/-- Model of base64.StdEncoding.EncodeToString: encode bytes in groups of
three into four characters, padding a final partial group with `=`. -/
def base64Encode : List Nat → List Char
  | b0 :: b1 :: b2 :: rest =>
    b64Char (b0 / 4) :: b64Char (b0 % 4 * 16 + b1 / 16) ::
      b64Char (b1 % 16 * 4 + b2 / 64) :: b64Char (b2 % 64) :: base64Encode rest
  | [b0, b1] => [b64Char (b0 / 4), b64Char (b0 % 4 * 16 + b1 / 16), b64Char (b1 % 16 * 4), '=']
  | [b0] => [b64Char (b0 / 4), b64Char (b0 % 4 * 16), '=', '=']
  | [] => []

/-- Model of base64.StdEncoding.DecodeString: decode in groups of four
characters, allowing `=` padding only in the final group; any other
malformed input is an error. -/
def base64Decode : List Char → Except String (List Nat)
  | [] => .ok []
  | c0 :: c1 :: c2 :: c3 :: rest =>
    match b64Index c0, b64Index c1 with
    | some n0, some n1 =>
      if c2 = '=' then
        if c3 = '=' ∧ rest = [] then .ok [n0 * 4 + n1 / 16]
        else .error "illegal base64 data"
      else
        match b64Index c2 with
        | some n2 =>
          if c3 = '=' then
            if rest = [] then .ok [n0 * 4 + n1 / 16, n1 % 16 * 16 + n2 / 4]
            else .error "illegal base64 data"
          else
            match b64Index c3 with
            | some n3 =>
              match base64Decode rest with
              | .ok tail => .ok ((n0 * 4 + n1 / 16) :: (n1 % 16 * 16 + n2 / 4) ::
                  (n2 % 4 * 64 + n3) :: tail)
              | .error e => .error e
            | none => .error "illegal base64 data"
        | none => .error "illegal base64 data"
    | _, _ => .error "illegal base64 data"
  | _ => .error "illegal base64 data"

/-- Encoding of an unsigned integer as a protobuf varint (little-endian
groups of 7 bits, continuation bit on all but the last byte). -/
def varintEncode (n : Nat) : List Nat :=
  if h : n < 128 then [n] else (n % 128 + 128) :: varintEncode (n / 128)
decreasing_by exact Nat.div_lt_self (by omega) (by omega)

/-- Decoding of a protobuf varint from the head of a byte list, returning the
value and the remaining bytes. -/
def varintDecode : List Nat → Option (Nat × List Nat)
  | [] => none
  | b :: rest =>
    if b < 128 then some (b, rest)
    else
      match varintDecode rest with
      | some (m, r) => some (m * 128 + (b - 128), r)
      | none => none

/-- Model of proto.Marshal of the gcsPageToken message: its single field
lastFile (field number 1, wire type 2, so tag byte 0x0A) is emitted
length-delimited; the zero value (the empty string) is omitted. -/
def protoMarshalPageToken (lastFile : List Nat) : List Nat :=
  if lastFile = [] then [] else 10 :: varintEncode lastFile.length ++ lastFile

/-- Model of proto.Unmarshal of the gcsPageToken message: parse a sequence of
tag-prefixed fields; field 1 with wire type 2 sets lastFile (the last
occurrence wins); an unknown tag or truncated input is rejected.  Fuel bounds
the loop, one unit per parsed field. -/
def protoParseFields : Nat → List Nat → List Nat → Except String (List Nat)
  | 0, _, _ => .error "invalid wire-format data"
  | _ + 1, acc, [] => .ok acc
  | fuel + 1, _, b :: bs =>
    match varintDecode (b :: bs) with
    | none => .error "invalid wire-format data"
    | some (tag, rest) =>
      if tag / 8 = 1 ∧ tag % 8 = 2 then
        match varintDecode rest with
        | none => .error "invalid wire-format data"
        | some (len, rest2) =>
          if len ≤ rest2.length then
            protoParseFields fuel (rest2.take len) (rest2.drop len)
          else .error "unexpected EOF"
      else .error "unknown field tag"

/-- Model of proto.Unmarshal for the one-field gcsPageToken message. -/
def protoUnmarshalPageToken (bs : List Nat) : Except String (List Nat) :=
  protoParseFields (bs.length + 1) [] bs

/-- Translated from EncodePageToken in storage/gcsutil/gcspagetoken.go:
marshal the gcsPageToken message, then base64-encode it. -/
def EncodePageToken (greaterThan : List Nat) : List Char :=
  base64Encode (protoMarshalPageToken greaterThan)

/-- Translated from DecodePageToken in storage/gcsutil/gcspagetoken.go:
base64-decode, then unmarshal the gcsPageToken message. -/
def DecodePageToken (pageToken : List Char) : Except String (List Nat) :=
  match base64Decode pageToken with
  | .ok bytes => protoUnmarshalPageToken bytes
  | .error e => .error ("could not base64 decode pageToken: " ++ e)

end Gcsutil

namespace Bttest

/-- Row keys ([]byte in Go). -/
abbrev keyType := Bytes

/-- A cell (btpb.Cell): timestamp in microseconds, value bytes, labels. -/
structure Cell where
  timestampMicros : Int
  value : Bytes
  labels : List String
deriving Repr, DecidableEq

/-- A column (btpb.Column): qualifier bytes and its cells. -/
structure Column where
  qualifier : Bytes
  cells : List Cell
deriving Repr, DecidableEq

/-- A family (btpb.Family): name and its columns. -/
structure Family where
  name : String
  columns : List Column
deriving Repr, DecidableEq

/-- A row (btpb.Row): key and its families. -/
structure Row where
  key : keyType
  families : List Family
deriving Repr, DecidableEq

/-- A GC rule (btapb.GcRule). -/
inductive GcRule where
  | maxNumVersions (n : Int)
  | maxAge (seconds : Int) (nanos : Int)
  | union (rules : List GcRule)
  | intersection (rules : List GcRule)
deriving Repr

/-- The column-family metadata map of a table (table.def.ColumnFamilies):
family name to optional GC rule. -/
abbrev FamMap := List (String × Option GcRule)

/-- Membership test in the family map (the `_, ok := fs[name]` pattern). -/
def famDefined (fs : FamMap) (name : String) : Bool :=
  fs.any (fun p => p.1 = name)

/-- GC-rule lookup in the family map (`rules[fam]`, nil when absent). -/
def famRule (fs : FamMap) (name : String) : Option GcRule :=
  match fs.find? (fun p => p.1 = name) with
  | some p => p.2
  | none => none

/-- math.MaxInt64. -/
def maxInt64 : Int := 2 ^ 63 - 1

/-- MilliSeconds field of the minimum valid timestamp (inmem.go). -/
def minValidMilliSeconds : Int := 0

/-- MilliSeconds field of the max valid timestamp (inmem.go): MaxInt64
truncated to millisecond granularity. -/
def maxValidMilliSeconds : Int := maxInt64 - maxInt64 % 1000

/-- Translated from table.validTimestamp in inmem.go. -/
def validTimestamp (ts : Int) : Bool :=
  if ts < minValidMilliSeconds ∨ ts > maxValidMilliSeconds then false
  else ts % 1000 = 0

/-- Translated from newTimestamp in inmem.go; the argument is the clock in
nanoseconds (now.UnixNano()).  Go's integer division and remainder truncate
toward zero, hence Int.tdiv / Int.tmod. -/
def newTimestamp (nowNanos : Int) : Int :=
  let ts := nowNanos.tdiv 1000
  ts - ts.tmod 1000

/-- Translated from maxTimestamp in inmem.go. -/
def maxTimestamp (x y : Int) : Int := if x > y then x else y

/-- Insertion step for sortByDescTS. -/
def insertCellByDescTS (c : Cell) : List Cell → List Cell
  | [] => [c]
  | d :: ds =>
    if c.timestampMicros ≥ d.timestampMicros then c :: d :: ds
    else d :: insertCellByDescTS c ds

/-- Model of sort.Sort(byDescTS(cs)): sort cells by descending timestamp.
sort.Sort is unstable, so ties may come out in any order; the cell lists this
code builds never hold two cells with one timestamp (appendOrReplaceCell
replaces), so any sort is a faithful model. -/
def sortByDescTS : List Cell → List Cell
  | [] => []
  | c :: cs => insertCellByDescTS c (sortByDescTS cs)

/-- The replace half of appendOrReplaceCell: replace the first cell carrying
the new cell's timestamp, or return none when no cell does. -/
def replaceCellByTS : List Cell → Cell → Option (List Cell)
  | [], _ => none
  | c :: cs, newCell =>
    if c.timestampMicros = newCell.timestampMicros then some (newCell :: cs)
    else
      match replaceCellByTS cs newCell with
      | some cs' => some (c :: cs')
      | none => none

/-- Translated from appendOrReplaceCell in inmem.go: replace the cell with an
equal timestamp if present, else append; then re-sort by descending
timestamp. -/
def appendOrReplaceCell (cs : List Cell) (newCell : Cell) : List Cell :=
  match replaceCellByTS cs newCell with
  | some cs' => sortByDescTS cs'
  | none => sortByDescTS (cs ++ [newCell])

/-- Translated from getFamily in inmem.go: the first family with the name. -/
def getFamily (r : Row) (name : String) : Option Family :=
  r.families.find? (fun f => f.name = name)

/-- Translated from getColumn in inmem.go: the first column with the
qualifier. -/
def getColumn (f : Family) (q : Bytes) : Option Column :=
  f.columns.find? (fun c => c.qualifier = q)

/-- Functional rendering of getOrCreateColumn followed by an update through
the returned pointer: update the first column with the qualifier, appending a
fresh empty column first when absent. -/
def updateColumns (q : Bytes) (t : Column → Column) : List Column → List Column
  | [] => [t { qualifier := q, cells := [] }]
  | c :: rest => if c.qualifier = q then t c :: rest else c :: updateColumns q t rest

/-- Functional rendering of getOrCreateFamily followed by an update through
the returned pointer. -/
def updateFamilies (name : String) (t : Family → Family) : List Family → List Family
  | [] => [t { name := name, columns := [] }]
  | f :: rest => if f.name = name then t f :: rest else f :: updateFamilies name t rest

/-- getOrCreateFamily + getOrCreateColumn + an update of that column's cells,
as done by the set-cell mutation and the read-modify-write rules. -/
def updColAt (t : List Cell → List Cell) (c : Column) : Column :=
  { c with cells := t c.cells }

/-- The family update performed by modifyCellsAt. -/
def updFamAt (q : Bytes) (t : List Cell → List Cell) (f : Family) : Family :=
  { f with columns := updateColumns q (updColAt t) f.columns }

def modifyCellsAt (r : Row) (fam : String) (q : Bytes) (t : List Cell → List Cell) : Row :=
  { r with families := updateFamilies fam (updFamAt q t) r.families }

/-- The cells of the column addressed by family name and qualifier (empty
when the family or column is absent). -/
def cellsAt (r : Row) (fam : String) (q : Bytes) : List Cell :=
  match getFamily r fam with
  | none => []
  | some f =>
    match getColumn f q with
    | none => []
    | some c => c.cells

/-- A time range of a delete-from-column mutation (btpb.TimestampRange). -/
structure TimeRange where
  startTimestampMicros : Int
  endTimestampMicros : Int
deriving Repr, DecidableEq

/-- A mutation (btpb.Mutation); unknownType stands for a oneof case outside
the four the engine handles. -/
inductive Mutation where
  | setCell (familyName : String) (columnQualifier : Bytes) (timestampMicros : Int) (value : Bytes)
  | deleteFromColumn (familyName : String) (columnQualifier : Bytes) (timeRange : Option TimeRange)
  | deleteFromRow
  | deleteFromFamily (familyName : String)
  | unknownType
deriving Repr, DecidableEq

/-- Model of the sort.Search calls in the delete-from-column mutation: the
least index satisfying the predicate, or the length when none does
(sort.Search requires a monotone predicate; on descending cells the
timestamp predicates used here are monotone, and then binary and linear
search agree). -/
def searchCells (cs : List Cell) (p : Cell → Bool) : Nat := cs.findIdx p

/-- The cell removal of a delete-from-column mutation with a time range:
drop the half-open index interval covering timestamps in
[startTimestampMicros, endTimestampMicros) of the descending cell list. -/
def deleteTimeRangeCells (cs : List Cell) (tsr : TimeRange) : List Cell :=
  let ei := if tsr.startTimestampMicros > 0 then
      searchCells cs (fun c => decide (c.timestampMicros < tsr.startTimestampMicros))
    else cs.length
  let si := if tsr.endTimestampMicros > 0 then
      searchCells cs (fun c => decide (c.timestampMicros < tsr.endTimestampMicros))
    else 0
  if si < ei then cs.take si ++ cs.drop ei else cs

/-- The delete-from-family mutation body: empty the columns of the first
family with the name (no family is created when absent). -/
def clearColumnsOfFamily (name : String) : List Family → List Family
  | [] => []
  | f :: rest =>
    if f.name = name then { f with columns := [] } :: rest
    else f :: clearColumnsOfFamily name rest

/-- One step of applyMutations in inmem.go: apply a single mutation to the
in-memory row or fail; all validations precede any change to the row. -/
def applyMutation (tbl : FamMap) (r : Row) (now : Int) : Mutation → Except String Row
  | .setCell fam q ts v =>
    if ¬ famDefined tbl fam then .error ("unknown family " ++ fam)
    else
      let ts := if ts = -1 then newTimestamp now else ts
      if ¬ validTimestamp ts then .error "invalid timestamp"
      else .ok (modifyCellsAt r fam q (fun cs =>
        appendOrReplaceCell cs { timestampMicros := ts, value := v, labels := [] }))
  | .deleteFromColumn fam q tr =>
    if ¬ famDefined tbl fam then .error ("unknown family " ++ fam)
    else
      match getFamily r fam with
      | none => .ok r
      | some f =>
        match getColumn f q with
        | none => .ok r
        | some _ =>
          match tr with
          | some tsr =>
            if ¬ validTimestamp tsr.startTimestampMicros then .error "invalid timestamp"
            else if ¬ validTimestamp tsr.endTimestampMicros ∧ tsr.endTimestampMicros ≠ 0 then
              .error "invalid timestamp"
            else if tsr.startTimestampMicros ≥ tsr.endTimestampMicros ∧
                tsr.endTimestampMicros ≠ 0 then
              .error "inverted or invalid timestamp range"
            else .ok (modifyCellsAt r fam q (fun cs => deleteTimeRangeCells cs tsr))
          | none => .ok (modifyCellsAt r fam q (fun _ => []))
  | .deleteFromRow => .ok { r with families := [] }
  | .deleteFromFamily fam => .ok { r with families := clearColumnsOfFamily fam r.families }
  | .unknownType => .error "cannot handle mutation type"

/-- Translated from applyMutations in inmem.go.  The Go code mutates the row
in place and returns only an error; here the (possibly partially mutated) row
is returned alongside the error value, mirroring the in-place semantics:
mutations before the failing one remain applied to the returned row. -/
def applyMutations (tbl : FamMap) (r : Row) (muts : List Mutation) (now : Int) :
    Row × Option String :=
  match muts with
  | [] => (r, none)
  | m :: rest =>
    match applyMutation tbl r now m with
    | .error e => (r, some e)
    | .ok r' => applyMutations tbl r' rest now

/-- Insertion step for sortColsByQual. -/
def insertColByQual (c : Column) : List Column → List Column
  | [] => [c]
  | d :: ds =>
    if c.qualifier < d.qualifier then c :: d :: ds else d :: insertColByQual c ds

/-- Model of the sort.Slice in scrubFam: sort columns ascending by qualifier
bytes (ties are equal qualifiers, so any sort agrees). -/
def sortColsByQual : List Column → List Column
  | [] => []
  | c :: cs => insertColByQual c (sortColsByQual cs)

/-- Translated from scrubFam in inmem.go: drop empty columns, then sort the
columns by qualifier (the changed flag it also returns is dropped). -/
def scrubFam (f : Family) : Family :=
  { f with columns := sortColsByQual (f.columns.filter (fun c => !c.cells.isEmpty)) }

/-- Translated from scrubRow in inmem.go: keep, in order, the families that
are declared in the table and whose scrubbed column list is nonempty (the
changed flag it also returns is dropped). -/
def scrubRow (r : Row) (cols : FamMap) : Row :=
  { r with families := r.families.filterMap (fun f =>
      if famDefined cols f.name then
        let f' := scrubFam f
        if f'.columns.isEmpty then none else some f'
      else none) }

/-- The row-storage engine (Rows) keyed by row key.  Both engines hold rows
serialized to proto bytes and deserialize a fresh value on Get and on every
iteration step (fromProto), so rows held by callers never alias the store;
an association list of row values in insertion order models this. -/
abbrev Store := List Row

/-- Rows.Get. -/
def storeGet (s : Store) (key : keyType) : Option Row :=
  s.find? (fun r => r.key = key)

/-- Rows.Delete. -/
def storeDelete (s : Store) (key : keyType) : Store :=
  s.filter (fun r => !(r.key = key : Bool))

/-- Rows.ReplaceOrInsert. -/
def storeReplaceOrInsert : Store → Row → Store
  | [], r => [r]
  | x :: rest, r => if x.key = r.key then r :: rest else x :: storeReplaceOrInsert rest r

/-- Translated from table.getOrCreateRow in inmem.go. -/
def getOrCreateRow (s : Store) (key : keyType) : Row :=
  match storeGet s key with
  | some r => r
  | none => { key := key, families := [] }

/-- Translated from table.updateRow in inmem.go: scrub, then delete the row
when no families remain, else store it. -/
def updateRow (cols : FamMap) (s : Store) (r : Row) : Store :=
  let r := scrubRow r cols
  if r.families.isEmpty then storeDelete s r.key else storeReplaceOrInsert s r

/-- Translated from server.MutateRow in inmem.go: fetch or create the row,
apply the batch, and call tbl.updateRow only when the whole batch succeeded
(on error the handler returns before updateRow, leaving the store as it
was). -/
def MutateRow (cols : FamMap) (s : Store) (key : keyType) (muts : List Mutation) (now : Int) :
    Store × Option String :=
  let r := getOrCreateRow s key
  match applyMutations cols r muts now with
  | (_, some e) => (s, some e)
  | (r', none) => (updateRow cols s r', none)

/-- Translated from one entry of server.MutateRows in inmem.go: the per-entry
status records the failure, but tbl.updateRow(r) runs regardless, storing the
partially mutated row.  The Bool is true when the entry succeeded. -/
def MutateRowsEntry (cols : FamMap) (s : Store) (key : keyType) (muts : List Mutation)
    (now : Int) : Store × Bool :=
  let r := getOrCreateRow s key
  match applyMutations cols r muts now with
  | (r', some _) => (updateRow cols s r', false)
  | (r', none) => (updateRow cols s r', true)

/-- An open/closed/unset bound of a column-range or value-range filter. -/
inductive RangeBound where
  | unset
  | boundOpen (b : Bytes)
  | boundClosed (b : Bytes)
deriving Repr, DecidableEq

/-- A row filter (btpb.RowFilter), covering the deterministic filters the
evaluator implements.  The regex filters and the row-sample filter draw on a
regex engine and a random source and are outside this embedding; sink
(btpb.RowFilter_Sink) is a filter tag the evaluator does not recognize and
exercises the default branches of filterRow, includeCell and modifyCell. -/
inductive Filter where
  | blockAllFilter (b : Bool)
  | passAllFilter (b : Bool)
  | chain (filters : List Filter)
  | interleave (filters : List Filter)
  | condition (predicateFilter trueFilter falseFilter : Option Filter)
  | cellsPerColumnLimitFilter (limit : Nat)
  | cellsPerRowLimitFilter (limit : Nat)
  | cellsPerRowOffsetFilter (offset : Nat)
  | stripValueTransformer
  | applyLabelTransformer (label : String)
  | timestampRangeFilter (startTimestampMicros endTimestampMicros : Int)
  | columnRangeFilter (familyName : String) (startQualifier endQualifier : RangeBound)
  | valueRangeFilter (startValue endValue : RangeBound)
  | sink
deriving Repr

/-- Characters of the class [a-z0-9\-]. -/
def isLabelChar (c : Char) : Bool :=
  ('a' ≤ c ∧ c ≤ 'z') ∨ ('0' ≤ c ∧ c ≤ '9') ∨ c = '-'

/-- Model of validLabelTransformer.MatchString, where validLabelTransformer
is regexp.MustCompile of the unanchored pattern [a-z0-9\-]{1,15}: Go's
MatchString reports whether SOME substring matches, i.e. whether a run of 1
to 15 characters of the class occurs anywhere in the label. -/
def labelRegexMatchString (s : List Char) : Bool :=
  (List.range s.length).any (fun i =>
    (List.range 15).any (fun len =>
      decide (i + len + 1 ≤ s.length) && ((s.drop i).take (len + 1)).all isLabelChar))

/-- Translated from modifyCell in inmem.go. -/
def modifyCell (f : Option Filter) (c : Cell) : Except String Cell :=
  match f with
  | none => .ok c
  | some .stripValueTransformer =>
    .ok { timestampMicros := c.timestampMicros, value := [], labels := [] }
  | some (.applyLabelTransformer label) =>
    if ¬ labelRegexMatchString label.toList then
      .error "apply_label_transformer must match RE2"
    else .ok { timestampMicros := c.timestampMicros, value := c.value, labels := [label] }
  | some _ => .ok c

/-- Translated from includeCell in inmem.go (the regex cases are outside this
embedding; every filter tag the function does not recognize, sink included,
takes the default branch: log a warning and include the cell). -/
def includeCell (f : Option Filter) (fam : String) (col : Bytes) (cell : Cell) :
    Except String Bool :=
  match f with
  | none => .ok true
  | some (.columnRangeFilter familyName sq eq) =>
    if fam ≠ familyName then .ok false
    else
      let inRangeStart : Bool := match sq with
        | .unset => decide (([] : Bytes) ≤ col)
        | .boundOpen s => decide (s < col)
        | .boundClosed s => decide (s ≤ col)
      let inRangeEnd : Bool := match eq with
        | .unset => true
        | .boundClosed e => decide (col ≤ e)
        | .boundOpen e => decide (col < e)
      .ok (inRangeStart && inRangeEnd)
  | some (.timestampRangeFilter startTs endTs) =>
    if startTs.tmod 1000 ≠ 0 ∨ endTs.tmod 1000 ≠ 0 then
      .error "timestamp filter allows at most millisecond precision"
    else .ok (decide (startTs ≤ cell.timestampMicros) &&
      (decide (endTs = 0) || decide (cell.timestampMicros < endTs)))
  | some (.valueRangeFilter sv ev) =>
    let v := cell.value
    let inRangeStart : Bool := match sv with
      | .unset => decide (([] : Bytes) ≤ v)
      | .boundOpen s => decide (s < v)
      | .boundClosed s => decide (s ≤ v)
    let inRangeEnd : Bool := match ev with
      | .unset => true
      | .boundClosed e => decide (v ≤ e)
      | .boundOpen e => decide (v < e)
    .ok (inRangeStart && inRangeEnd)
  | some _ => .ok true

/-- Translated from filterCells in inmem.go. -/
def filterCells (f : Option Filter) (fam : String) (col : Bytes) :
    List Cell → Except String (List Cell)
  | [] => .ok []
  | cell :: cs =>
    match includeCell f fam col cell with
    | .error e => .error e
    | .ok false => filterCells f fam col cs
    | .ok true =>
      match modifyCell f cell with
      | .error e => .error e
      | .ok cell' =>
        match filterCells f fam col cs with
        | .error e => .error e
        | .ok rest => .ok (cell' :: rest)

/-- The per-cell fallthrough of filterRow over one family's columns:
col.Cells = filterCells(f, fam.Name, col.Qualifier, col.Cells). -/
def filterColumns (f : Option Filter) (famName : String) :
    List Column → Except String (List Column)
  | [] => .ok []
  | col :: rest =>
    match filterCells f famName col.qualifier col.cells with
    | .error e => .error e
    | .ok cells' =>
      match filterColumns f famName rest with
      | .error e => .error e
      | .ok rest' => .ok ({ col with cells := cells' } :: rest')

/-- The per-cell fallthrough of filterRow over all families. -/
def filterRowCellsFams (f : Option Filter) : List Family → Except String (List Family)
  | [] => .ok []
  | fam :: rest =>
    match filterColumns f fam.name fam.columns with
    | .error e => .error e
    | .ok cols' =>
      match filterRowCellsFams f rest with
      | .error e => .error e
      | .ok rest' => .ok ({ fam with columns := cols' } :: rest')

/-- Total number of cells in a family list. -/
def countCellsFams (fams : List Family) : Nat :=
  (fams.map (fun fam => (fam.columns.map (fun col => col.cells.length)).sum)).sum

/-- Translated from copyRow in inmem.go; with value semantics the copy is the
row itself. -/
def copyRow (r : Row) : Row := r

/-- Translated from isEmpty in inmem.go. -/
def isEmptyRow (r : Row) : Bool :=
  r.families.all (fun fam => fam.columns.all (fun c => c.cells.isEmpty))

/-- The cells-per-row-limit case of filterRow over one family's columns,
threading the remaining limit. -/
def cellsPerRowLimitCols (lim : Nat) : List Column → List Column × Nat
  | [] => ([], lim)
  | col :: rest =>
    if col.cells.length > lim then
      let (rest', lim') := cellsPerRowLimitCols 0 rest
      ({ col with cells := col.cells.take lim } :: rest', lim')
    else
      let (rest', lim') := cellsPerRowLimitCols (lim - col.cells.length) rest
      (col :: rest', lim')

/-- The cells-per-row-limit case of filterRow over all families. -/
def cellsPerRowLimitFams (lim : Nat) : List Family → List Family
  | [] => []
  | fam :: rest =>
    let (cols', lim') := cellsPerRowLimitCols lim fam.columns
    { fam with columns := cols' } :: cellsPerRowLimitFams lim' rest

/-- The inner loop of the cells-per-row-offset case of filterRow, translated
faithfully from inmem.go: when a column holds no more cells than the
remaining offset, the code first truncates the column
(col.Cells = col.Cells[:0]) and only then executes
offset -= len(col.Cells) — the length of the now-empty slice, i.e. 0 — so
the offset never decreases.  The second component is none when the loop
returned early (a column held more cells than the offset), else the offset
to carry to the next family. -/
def cellsPerRowOffsetCols (offset : Nat) : List Column → List Column × Option Nat
  | [] => ([], some offset)
  | col :: rest =>
    if col.cells.length > offset then
      ({ col with cells := col.cells.drop offset } :: rest, none)
    else
      let col' := { col with cells := col.cells.take 0 }
      let offset' := offset - col'.cells.length
      let (rest', cont) := cellsPerRowOffsetCols offset' rest
      (col' :: rest', cont)

/-- The cells-per-row-offset case of filterRow over all families. -/
def cellsPerRowOffsetFams (offset : Nat) : List Family → List Family
  | [] => []
  | fam :: rest =>
    let (cols', cont) := cellsPerRowOffsetCols offset fam.columns
    match cont with
    | none => { fam with columns := cols' } :: rest
    | some offset' => { fam with columns := cols' } :: cellsPerRowOffsetFams offset' rest

/-- The merge loop of the interleave case of filterRow: r.Families is
cleared, then every matching sub-row's cells are appended column by column
via getOrCreateFamily / getOrCreateColumn. -/
def interleaveMergeRow (r : Row) (srs : List Row) : Row :=
  srs.foldl (fun acc sr =>
    sr.families.foldl (fun acc2 fam =>
      fam.columns.foldl (fun acc3 col =>
        modifyCellsAt acc3 fam.name col.qualifier (fun cs => cs ++ col.cells)) acc2) acc)
    { r with families := [] }

/-- After the interleave merge, every column is re-sorted by descending
timestamp. -/
def sortRowCells (fams : List Family) : List Family :=
  fams.map (fun fam =>
    let cols := fam.columns.map (fun col => { col with cells := sortByDescTS col.cells })
    { fam with columns := cols })

/-- The cells-per-column-limit case of filterRow: truncate every column to at
most the limit. -/
def cellsPerColumnLimitFams (lim : Nat) (fams : List Family) : List Family :=
  fams.map (fun fam =>
    let cols := fam.columns.map (fun col =>
      if col.cells.length > lim then { col with cells := col.cells.take lim } else col)
    { fam with columns := cols })

mutual

/-- Translated from filterRow in inmem.go: evaluate a filter on a row,
returning whether to emit the row together with the (possibly cell-modified)
row; invalid filters yield errors.  The regex filters and the row-sample
filter are outside this embedding. -/
def filterRow (f : Option Filter) (r : Row) : Except String (Bool × Row) :=
  match f with
  | none => .ok (true, r)
  | some (.blockAllFilter b) =>
    if ¬ b then .error "block_all_filter must be true if set" else .ok (false, r)
  | some (.passAllFilter b) =>
    if ¬ b then .error "pass_all_filter must be true if set" else .ok (true, r)
  | some (.chain filters) =>
    if filters.length < 2 then .error "Chain must contain at least two RowFilters"
    else filterRowChain filters r
  | some (.interleave filters) =>
    if filters.length < 2 then .error "Interleave must contain at least two RowFilters"
    else
      match filterRowInterleave filters r with
      | .error e => .error e
      | .ok srs =>
        let merged := interleaveMergeRow r srs
        let sorted := { merged with families := sortRowCells merged.families }
        .ok (decide (0 < countCellsFams sorted.families), sorted)
  | some (.cellsPerColumnLimitFilter lim) =>
    .ok (true, { r with families := cellsPerColumnLimitFams lim r.families })
  | some (.condition p t fc) =>
    match filterRow p (copyRow r) with
    | .error e => .error e
    | .ok (matched, _) =>
      if matched then
        match t with
        | none => .ok (false, r)
        | some tf => filterRow (some tf) r
      else
        match fc with
        | none => .ok (false, r)
        | some ff => filterRow (some ff) r
  | some (.cellsPerRowLimitFilter lim) =>
    .ok (true, { r with families := cellsPerRowLimitFams lim r.families })
  | some (.cellsPerRowOffsetFilter offset) =>
    .ok (true, { r with families := cellsPerRowOffsetFams offset r.families })
  | some f =>
    match filterRowCellsFams (some f) r.families with
    | .error e => .error e
    | .ok fams' => .ok (decide (0 < countCellsFams fams'), { r with families := fams' })
termination_by sizeOf f
decreasing_by
  all_goals simp_wf
  all_goals omega

/-- The chain case of filterRow: evaluate left to right on the same row,
stopping at the first non-match. -/
def filterRowChain (filters : List Filter) (r : Row) : Except String (Bool × Row) :=
  match filters with
  | [] => .ok (true, r)
  | g :: rest =>
    match filterRow (some g) r with
    | .error e => .error e
    | .ok (false, r') => .ok (false, r')
    | .ok (true, r') => filterRowChain rest r'
termination_by sizeOf filters + 1
decreasing_by
  all_goals simp_wf
  all_goals omega

/-- The interleave case of filterRow: evaluate each sub-filter on an
independent copy of the row, collecting the matching sub-rows. -/
def filterRowInterleave (filters : List Filter) (r : Row) : Except String (List Row) :=
  match filters with
  | [] => .ok []
  | g :: rest =>
    match filterRow (some g) (copyRow r) with
    | .error e => .error e
    | .ok (matched, sr) =>
      match filterRowInterleave rest r with
      | .error e => .error e
      | .ok srs => .ok (if matched then sr :: srs else srs)
termination_by sizeOf filters + 1
decreasing_by
  all_goals simp_wf
  all_goals omega

end

/-- A sample row with one family of two columns: column a holds one cell,
column b holds two (descending timestamps). -/
def offsetSampleRow : Row :=
  { key := [114]
    families := [{
      name := "cf"
      columns := [
        { qualifier := [97]
          cells := [{ timestampMicros := 2000, value := [120], labels := [] }] },
        { qualifier := [98]
          cells := [{ timestampMicros := 3000, value := [121], labels := [] },
                    { timestampMicros := 2000, value := [122], labels := [] }] }] }] }

/-- offsetSampleRow as the code's cells-per-row-offset 2 leaves it: both
columns emptied. -/
def offsetSampleRowCode : Row :=
  { key := [114]
    families := [{
      name := "cf"
      columns := [
        { qualifier := [97], cells := [] },
        { qualifier := [98], cells := [] }] }] }

/-- offsetSampleRow with exactly its first two cells in row order removed,
as the claim describes: column b keeps its second cell. -/
def offsetSampleRowClaim : Row :=
  { key := [114]
    families := [{
      name := "cf"
      columns := [
        { qualifier := [97], cells := [] },
        { qualifier := [98]
          cells := [{ timestampMicros := 2000, value := [122], labels := [] }] }] }] }

/-- A sample cell for the apply-label filter. -/
def labelSampleCell : Cell := { timestampMicros := 5000, value := [1], labels := [] }

/-- A row holding one family with one column and no cells. -/
def zeroCellRow : Row :=
  { key := [107], families := [{ name := "cf", columns := [{ qualifier := [99], cells := [] }] }] }

/-- A read-modify-write rule (btpb.ReadModifyWriteRule). -/
inductive RMWRule where
  | appendValue (familyName : String) (columnQualifier : Bytes) (v : Bytes)
  | incrementAmount (familyName : String) (columnQualifier : Bytes) (amount : Int)
deriving Repr, DecidableEq

/-- binary.BigEndian.Uint64 of 8 bytes. -/
def uint64be (bs : Bytes) : Nat := bs.foldl (fun acc b => acc * 256 + b) 0

/-- The reinterpretation int64(u) of an unsigned 64-bit value
(two's complement). -/
def int64OfUint64 (u : Nat) : Int :=
  if u < 2 ^ 63 then (u : Int) else (u : Int) - 2 ^ 64

/-- binary.BigEndian.PutUint64(val, uint64(v)): the 8 big-endian bytes of v
modulo 2^64 (the conversion to uint64 absorbs Go's wrapping int64
addition). -/
def putUint64be (v : Int) : Bytes :=
  let u := (v % (2 ^ 64)).toNat
  [u / 2 ^ 56 % 256, u / 2 ^ 48 % 256, u / 2 ^ 40 % 256, u / 2 ^ 32 % 256,
   u / 2 ^ 24 % 256, u / 2 ^ 16 % 256, u / 2 ^ 8 % 256, u % 256]

/-- The result-row write of a read-modify-write rule:
resultCol.Cells = { newCell }. -/
def setResultCell (resultRow : Row) (fam : String) (q : Bytes) (c : Cell) : Row :=
  modifyCellsAt resultRow fam q (fun _ => [c])

/-- One rule of server.ReadModifyWriteRow in inmem.go: check the family,
read the most recent cell of the addressed column (prevVal, and the max of
the clock and its timestamp), compute the new cell, and store it in the row
and the result row.  The increment case guards with prevVal != nil before
the 8-byte length check: a cell value is a Go nil slice exactly when it is
empty, because every row reaching this handler was unmarshalled from proto
bytes (both storage engines round-trip rows through proto.Marshal, which
omits empty bytes fields), so the guard is modelled as c.value = [] and an
existing empty-valued cell is treated as an absent previous value. -/
def applyRMWRule (cols : FamMap) (now : Int) (r resultRow : Row) :
    RMWRule → Except String (Row × Row)
  | .appendValue famName qual appendVal =>
    if ¬ famDefined cols famName then .error ("unknown family " ++ famName)
    else
      let cs := cellsAt r famName qual
      let newCell : Cell :=
        match cs with
        | [] => { timestampMicros := newTimestamp now, value := appendVal, labels := [] }
        | c :: _ =>
          { timestampMicros := maxTimestamp (newTimestamp now) c.timestampMicros
            value := c.value ++ appendVal, labels := [] }
      .ok (modifyCellsAt r famName qual (fun cs0 => appendOrReplaceCell cs0 newCell),
        setResultCell resultRow famName qual newCell)
  | .incrementAmount famName qual amount =>
    if ¬ famDefined cols famName then .error ("unknown family " ++ famName)
    else
      let cs := cellsAt r famName qual
      match cs with
      | [] =>
        let v : Int := 0 + amount
        let newCell : Cell :=
          { timestampMicros := newTimestamp now, value := putUint64be v, labels := [] }
        .ok (modifyCellsAt r famName qual (fun cs0 => appendOrReplaceCell cs0 newCell),
          setResultCell resultRow famName qual newCell)
      | c :: _ =>
        if c.value = [] then
          let v : Int := 0 + amount
          let newCell : Cell :=
            { timestampMicros := maxTimestamp (newTimestamp now) c.timestampMicros
              value := putUint64be v, labels := [] }
          .ok (modifyCellsAt r famName qual (fun cs0 => appendOrReplaceCell cs0 newCell),
            setResultCell resultRow famName qual newCell)
        else if c.value.length ≠ 8 then .error "increment on non-64-bit value"
        else
          let v : Int := int64OfUint64 (uint64be c.value) + amount
          let newCell : Cell :=
            { timestampMicros := maxTimestamp (newTimestamp now) c.timestampMicros
              value := putUint64be v, labels := [] }
          .ok (modifyCellsAt r famName qual (fun cs0 => appendOrReplaceCell cs0 newCell),
            setResultCell resultRow famName qual newCell)

/-- The rule loop of server.ReadModifyWriteRow. -/
def rmwRules (cols : FamMap) (now : Int) :
    Row × Row → List RMWRule → Except String (Row × Row)
  | rr, [] => .ok rr
  | (r, res), rule :: rest =>
    match applyRMWRule cols now r res rule with
    | .error e => .error e
    | .ok rr' => rmwRules cols now rr' rest

/-- Translated from server.ReadModifyWriteRow in inmem.go: on success the
scrubbed updated row replaces the stored row (a plain ReplaceOrInsert, not
updateRow) and the scrubbed result row is returned; on error the store is
untouched. -/
def ReadModifyWriteRow (cols : FamMap) (s : Store) (key : keyType) (rules : List RMWRule)
    (now : Int) : Except String (Store × Row) :=
  let r := getOrCreateRow s key
  match rmwRules cols now (r, { key := key, families := [] }) rules with
  | .error e => .error e
  | .ok (r', resultRow) =>
    .ok (storeReplaceOrInsert s (scrubRow r' cols), scrubRow resultRow cols)

/-- Cells in strictly descending timestamp order (in particular no two cells
share a timestamp). -/
def cellsStrictDesc (cs : List Cell) : Prop :=
  cs.Pairwise (fun a b => b.timestampMicros < a.timestampMicros)

/-- A half-open row-key range (simpleRange in inmem.go); the Go field `end`
is named stop here.  An empty stop means the range is unbounded above; the
empty start is the least key, so the lower side needs no special case. -/
structure SimpleRange where
  start : keyType
  stop : keyType
deriving Repr, DecidableEq

/-- Translated from the endCmp closure in mergeSimpleRanges: compare range
ends, the empty key being greater than any non-empty key. -/
def endCmp (a b : SimpleRange) : Ordering :=
  if a.stop = [] ∧ b.stop = [] then .eq
  else if b.stop = [] then .lt
  else if a.stop = [] then .gt
  else if a.stop < b.stop then .lt
  else if b.stop < a.stop then .gt
  else .eq

/-- Translated from the sort.Slice comparator in mergeSimpleRanges: by start
key, then by endCmp. -/
def srLess (i j : SimpleRange) : Bool :=
  if i.start < j.start then true
  else if j.start < i.start then false
  else
    match endCmp i j with
    | .lt => true
    | _ => false

/-- Insertion step of sortSimpleRanges. -/
def insertSR (c : SimpleRange) : List SimpleRange → List SimpleRange
  | [] => [c]
  | d :: ds => if srLess c d then c :: d :: ds else d :: insertSR c ds

/-- Model of the sort.Slice call in mergeSimpleRanges as an insertion sort
with the same comparator (under srLess, tied elements are equal ranges, so
the unstable Go sort is determined up to equal elements). -/
def sortSimpleRanges : List SimpleRange → List SimpleRange
  | [] => []
  | c :: cs => insertSR c (sortSimpleRanges cs)

/-- Translated from the merge closure in mergeSimpleRanges: none when a and
b are disjoint (a bounded with its stop before b's start); otherwise the
merged range keeps a's start and the endCmp-greater stop. -/
def mergeSR (a b : SimpleRange) : Option SimpleRange :=
  if a.stop ≠ [] ∧ a.stop < b.start then none
  else
    let e := match endCmp a b with
      | .lt => b.stop
      | _ => a.stop
    some { start := a.start, stop := e }

/-- The in-place merge loop of mergeSimpleRanges, the `last` slot carried as
an accumulator. -/
def mergeLoop (acc : SimpleRange) : List SimpleRange → List SimpleRange
  | [] => [acc]
  | b :: rest =>
    match mergeSR acc b with
    | some m => mergeLoop m rest
    | none => acc :: mergeLoop b rest

/-- Translated from mergeSimpleRanges in inmem.go. -/
def mergeSimpleRanges (srs : List SimpleRange) : List SimpleRange :=
  match sortSimpleRanges srs with
  | [] => []
  | a :: rest => mergeLoop a rest

/-- The start-key oneof of a row range (btpb.RowRange). -/
inductive StartKey where
  | unset
  | startKeyClosed (k : keyType)
  | startKeyOpen (k : keyType)
deriving Repr, DecidableEq

/-- The end-key oneof of a row range (btpb.RowRange). -/
inductive EndKey where
  | unset
  | endKeyClosed (k : keyType)
  | endKeyOpen (k : keyType)
deriving Repr, DecidableEq

/-- A row range (btpb.RowRange). -/
structure RowRange where
  startKey : StartKey
  endKey : EndKey
deriving Repr, DecidableEq

/-- The per-range conversion in mergeRowRanges: a closed start and an open
end pass through, an open start and a closed end append a zero byte, and an
unset bound is the empty key (the Go zero value). -/
def rowRangeToSimple (rr : RowRange) : SimpleRange :=
  let s := match rr.startKey with
    | .unset => []
    | .startKeyClosed k => k
    | .startKeyOpen k => k ++ [0]
  let e := match rr.endKey with
    | .unset => []
    | .endKeyClosed k => k ++ [0]
    | .endKeyOpen k => k
  { start := s, stop := e }

/-- Translated from mergeRowRanges in inmem.go: each explicit key k
contributes the range [k, k·0), each row range converts per its bounds, and
the combined list is merged. -/
def mergeRowRanges (explicit : List keyType) (rrs : List RowRange) : List SimpleRange :=
  mergeSimpleRanges (explicit.map (fun k => { start := k, stop := k ++ [0] })
    ++ rrs.map rowRangeToSimple)

/-- Membership of a key in a simple range: at or after the start and, unless
the range is unbounded above, before the stop. -/
def srMem (x : keyType) (sr : SimpleRange) : Prop :=
  sr.start ≤ x ∧ (sr.stop = [] ∨ x < sr.stop)

/-- Membership of a key in a row range per its open/closed/unbounded
endpoint semantics; per the spec, an empty bound means unbounded on that
side. -/
def rrMem (x : keyType) (rr : RowRange) : Prop :=
  (match rr.startKey with
    | .unset => True
    | .startKeyClosed k => k ≤ x
    | .startKeyOpen k => k < x) ∧
  (match rr.endKey with
    | .unset => True
    | .endKeyClosed k => x ≤ k
    | .endKeyOpen k => k = [] ∨ x < k)

/-- Consecutive merged ranges are separated: the earlier is bounded and its
stop is strictly before the later's start. -/
def srGap (a b : SimpleRange) : Prop := a.stop ≠ [] ∧ a.stop < b.start

mutual

/-- Translated from applyGC in inmem.go: trim a (descending) cell list by a
GC rule.  Unsupported rule types — intersection and any unknown oneof — leave
the cells unchanged; max-age keeps the prefix of cells at or after the
cutoff (now is the clock in nanoseconds, Go division truncates, hence tdiv);
max-num-versions keeps the first n cells. -/
def applyGC (cells : List Cell) (now : Int) (rule : GcRule) : List Cell :=
  match rule with
  | .maxNumVersions n => if (cells.length : Int) > n then cells.take n.toNat else cells
  | .maxAge seconds nanos =>
    let cutoff := now.tdiv 1000 - seconds * 1000000 - nanos.tdiv 1000
    cells.take (searchCells cells (fun c => decide (c.timestampMicros < cutoff)))
  | .union rules => applyGCUnion cells now rules
  | .intersection _ => cells
termination_by sizeOf rule
decreasing_by
  all_goals simp_wf

/-- The fold of applyGC over the sub-rules of a union rule. -/
def applyGCUnion (cells : List Cell) (now : Int) (rules : List GcRule) : List Cell :=
  match rules with
  | [] => cells
  | rule :: rest => applyGCUnion (applyGC cells now rule) now rest
termination_by sizeOf rules
decreasing_by
  all_goals simp_wf
  all_goals omega

end

/-- The per-row body of table.gc in inmem.go: apply each family's GC rule (if
any) to every column's cells. -/
def gcRow (cols : FamMap) (now : Int) (r : Row) : Row :=
  { r with families := r.families.map (fun f =>
      match famRule cols f.name with
      | none => f
      | some rule => { f with columns := f.columns.map (fun c =>
          { c with cells := applyGC c.cells now rule }) }) }

/-- The changed flag of table.gc: some column of a family with a GC rule lost
cells. -/
def gcRowChanged (cols : FamMap) (now : Int) (r : Row) : Bool :=
  r.families.any (fun f =>
    match famRule cols f.name with
    | none => false
    | some rule => f.columns.any (fun c =>
        decide (c.cells.length ≠ (applyGC c.cells now rule).length)))

/-- Translated from the row loop of table.gc in inmem.go: every stored row
has its cells trimmed in place by the GC rules; when that changed the row it
is scrubbed and re-stored, otherwise the (unchanged) trimmed row stays. -/
def gcPass (cols : FamMap) (now : Int) (s : Store) : Store :=
  s.map (fun r =>
    if gcRowChanged cols now r then scrubRow (gcRow cols now r) cols else gcRow cols now r)

/-- The stored-row invariant of the spec: every family holds at least one
column, every column holds at least one cell, and each column's cells are
strictly descending by timestamp (so no two cells share a timestamp). -/
def wellFormedRow (r : Row) : Prop :=
  ∀ f ∈ r.families, f.columns ≠ [] ∧ ∀ c ∈ f.columns, c.cells ≠ [] ∧ cellsStrictDesc c.cells

/-- The part of the invariant kept while a row is being mutated in memory:
every column's cells are strictly descending (columns and families may be
transiently empty until scrubRow). -/
def rowCellsDesc (r : Row) : Prop :=
  ∀ f ∈ r.families, ∀ c ∈ f.columns, cellsStrictDesc c.cells

/-- Every row of the store is well-formed. -/
def wellFormedStore (s : Store) : Prop := ∀ r ∈ s, wellFormedRow r

/-- Cell lists whose timestamps are pairwise distinct. -/
def tsDistinct (cs : List Cell) : Prop :=
  cs.Pairwise (fun a b => a.timestampMicros ≠ b.timestampMicros)

/-- Concrete family map for exercising the storage invariant. -/
def c8Cols : FamMap := [("cf", none)]

/-- Cells, column, family, and row of a concrete well-formed stored row. -/
def c8Cell1 : Cell := { timestampMicros := 2000, value := [1], labels := [] }

def c8Cell2 : Cell := { timestampMicros := 1000, value := [2], labels := [] }

def c8Col : Column := { qualifier := [99], cells := [c8Cell1, c8Cell2] }

def c8Fam : Family := { name := "cf", columns := [c8Col] }

def c8Row : Row := { key := [114], families := [c8Fam] }

/-- A stored cell holding an empty value (a nil slice after the proto
round-trip), together with its column, family, row, and an empty result
row, for exercising the read-modify-write increment guard. -/
def c5Cell : Cell := { timestampMicros := 1000, value := [], labels := [] }

def c5Col : Column := { qualifier := [99], cells := [c5Cell] }

def c5Fam : Family := { name := "cf", columns := [c5Col] }

def c5Row : Row := { key := [107], families := [c5Fam] }

def c5Res : Row := { key := [107], families := [] }

end Bttest

namespace KeyOrder

theorem lt_iff_lex {a b : Bytes} : a < b ↔ List.Lex (· < ·) a b := Iff.rfl

theorem cons_lt_cons_iff {a b : Nat} {l m : Bytes} :
    (a :: l) < (b :: m) ↔ a < b ∨ (a = b ∧ l < m) := by
  rw [lt_iff_lex]
  constructor
  · intro h
    cases h with
    | cons h => exact Or.inr ⟨rfl, h⟩
    | rel h => exact Or.inl h
  · rintro (h | ⟨rfl, h⟩)
    · exact List.Lex.rel h
    · exact List.Lex.cons h

theorem not_lt_nil (l : Bytes) : ¬ l < ([] : Bytes) := by
  rw [lt_iff_lex]; exact List.Lex.not_nil_right _ _

theorem nil_lt_iff {l : Bytes} : ([] : Bytes) < l ↔ l ≠ [] := by
  constructor
  · rintro h rfl; exact not_lt_nil [] h
  · intro h
    match l, h with
    | a :: l, _ => exact List.nil_lt_cons a l

theorem cons_le_cons_iff {a b : Nat} {l m : Bytes} :
    (a :: l) ≤ (b :: m) ↔ a < b ∨ (a = b ∧ l ≤ m) := by
  rw [le_iff_lt_or_eq, cons_lt_cons_iff, List.cons_eq_cons, le_iff_lt_or_eq]
  constructor
  · rintro ((h | ⟨rfl, h⟩) | ⟨rfl, rfl⟩)
    · exact Or.inl h
    · exact Or.inr ⟨rfl, Or.inl h⟩
    · exact Or.inr ⟨rfl, Or.inr rfl⟩
  · rintro (h | ⟨rfl, h | rfl⟩)
    · exact Or.inl (Or.inl h)
    · exact Or.inl (Or.inr ⟨rfl, h⟩)
    · exact Or.inr ⟨rfl, rfl⟩

/-- Appending a zero byte to a key yields its immediate successor in the
byte-lexicographic order: no key lies strictly between `s` and `s ++ [0]`. -/
theorem append_zero_le_iff (s x : Bytes) : s ++ [0] ≤ x ↔ s < x := by
  induction s generalizing x with
  | nil =>
    cases x with
    | nil =>
      simp only [List.nil_append]
      constructor
      · intro h
        exact absurd (lt_of_lt_of_le (List.nil_lt_cons 0 []) h) (lt_irrefl _)
      · intro h; exact absurd h (lt_irrefl _)
    | cons b t =>
      simp only [List.nil_append, cons_le_cons_iff]
      constructor
      · intro _; exact List.nil_lt_cons b t
      · intro _
        rcases Nat.eq_zero_or_pos b with rfl | hb
        · exact Or.inr ⟨rfl, List.nil_le⟩
        · exact Or.inl hb
  | cons a as ih =>
    cases x with
    | nil =>
      constructor
      · intro h
        exact absurd (lt_of_lt_of_le (List.nil_lt_cons a (as ++ [0])) h) (not_lt_nil _)
      · intro h; exact absurd h (not_lt_nil _)
    | cons b t =>
      simp only [List.cons_append, cons_le_cons_iff, cons_lt_cons_iff]
      constructor
      · rintro (h | ⟨rfl, h⟩)
        · exact Or.inl h
        · exact Or.inr ⟨rfl, (ih t).mp h⟩
      · rintro (h | ⟨rfl, h⟩)
        · exact Or.inl h
        · exact Or.inr ⟨rfl, (ih t).mpr h⟩

theorem lt_append_zero_iff (x e : Bytes) : x < e ++ [0] ↔ x ≤ e := by
  rw [← not_lt, ← not_le]
  exact not_congr (append_zero_le_iff e x)

/-- The half-open interval from a key `k` to `k` followed by a zero byte
contains exactly `k`. -/
theorem mem_key_range_iff (k x : Bytes) : k ≤ x ∧ x < k ++ [0] ↔ x = k := by
  rw [lt_append_zero_iff]
  constructor
  · rintro ⟨h₁, h₂⟩; exact le_antisymm h₂ h₁
  · rintro rfl; exact ⟨le_rfl, le_rfl⟩

end KeyOrder

namespace Gcsutil

theorem b64Index_b64Char {n : Nat} (h : n < 64) : b64Index (b64Char n) = some n := by
  revert h; revert n; decide

theorem b64Char_ne_pad {n : Nat} (h : n < 64) : ¬ b64Char n = '=' := by
  revert h; revert n; decide

/-- Decoding inverts encoding on every byte list. -/
theorem base64_roundtrip : ∀ bs : List Nat, (∀ b ∈ bs, b < 256) →
    base64Decode (base64Encode bs) = .ok bs
  | [], _ => by rfl
  | [b0], h => by
    have h0 : b0 < 256 := h b0 (by simp)
    have e0 := b64Index_b64Char (n := b0 / 4) (by omega)
    have e1 := b64Index_b64Char (n := b0 % 4 * 16) (by omega)
    have d0 : b0 / 4 * 4 + b0 % 4 * 16 / 16 = b0 := by omega
    simp [base64Encode, base64Decode, e0, e1, d0]
    omega
  | [b0, b1], h => by
    have h0 : b0 < 256 := h b0 (by simp)
    have h1 : b1 < 256 := h b1 (by simp)
    have e0 := b64Index_b64Char (n := b0 / 4) (by omega)
    have e1 := b64Index_b64Char (n := b0 % 4 * 16 + b1 / 16) (by omega)
    have e2 := b64Index_b64Char (n := b1 % 16 * 4) (by omega)
    have ne2 : ¬ b64Char (b1 % 16 * 4) = '=' := b64Char_ne_pad (by omega)
    have d0 : b0 / 4 * 4 + (b0 % 4 * 16 + b1 / 16) / 16 = b0 := by omega
    have d1 : (b0 % 4 * 16 + b1 / 16) % 16 * 16 + b1 % 16 * 4 / 4 = b1 := by omega
    simp [base64Encode, base64Decode, e0, e1, e2, ne2, d0, d1]
    omega
  | b0 :: b1 :: b2 :: rest, h => by
    have h0 : b0 < 256 := h b0 (by simp)
    have h1 : b1 < 256 := h b1 (by simp)
    have h2 : b2 < 256 := h b2 (by simp)
    have ih := base64_roundtrip rest (fun b hb => h b (by simp [hb]))
    have e0 := b64Index_b64Char (n := b0 / 4) (by omega)
    have e1 := b64Index_b64Char (n := b0 % 4 * 16 + b1 / 16) (by omega)
    have e2 := b64Index_b64Char (n := b1 % 16 * 4 + b2 / 64) (by omega)
    have e3 := b64Index_b64Char (n := b2 % 64) (by omega)
    have ne2 : ¬ b64Char (b1 % 16 * 4 + b2 / 64) = '=' := b64Char_ne_pad (by omega)
    have ne3 : ¬ b64Char (b2 % 64) = '=' := b64Char_ne_pad (by omega)
    have d0 : b0 / 4 * 4 + (b0 % 4 * 16 + b1 / 16) / 16 = b0 := by omega
    have d1 : (b0 % 4 * 16 + b1 / 16) % 16 * 16 + (b1 % 16 * 4 + b2 / 64) / 4 = b1 := by
      omega
    have d2 : (b1 % 16 * 4 + b2 / 64) % 4 * 64 + b2 % 64 = b2 := by omega
    simp [base64Encode, base64Decode, e0, e1, e2, e3, ne2, ne3, ih, d0, d1, d2]

theorem varint_roundtrip (n : Nat) (t : List Nat) :
    varintDecode (varintEncode n ++ t) = some (n, t) := by
  induction n using Nat.strong_induction_on with
  | _ n ih =>
    rw [varintEncode]
    split
    · simp [varintDecode, *]
    · rename_i hn
      rw [List.cons_append, varintDecode]
      rw [if_neg (show ¬ n % 128 + 128 < 128 by omega),
        ih (n / 128) (Nat.div_lt_self (by omega) (by omega))]
      simp
      omega

theorem varintEncode_bytes_lt (n : Nat) : ∀ b ∈ varintEncode n, b < 256 := by
  induction n using Nat.strong_induction_on with
  | _ n ih =>
    intro b hb
    rw [varintEncode] at hb
    split at hb
    · simp at hb; omega
    · simp only [List.mem_cons] at hb
      rcases hb with rfl | hb
      · omega
      · exact ih (n / 128) (Nat.div_lt_self (by omega) (by omega)) b hb

theorem protoUnmarshal_marshal (s : List Nat) (hs : s ≠ []) :
    protoUnmarshalPageToken (protoMarshalPageToken s) = .ok s := by
  rw [protoMarshalPageToken, if_neg hs]
  unfold protoUnmarshalPageToken
  show protoParseFields ((varintEncode s.length ++ s).length + 1 + 1) []
    (10 :: (varintEncode s.length ++ s)) = .ok s
  rw [protoParseFields]
  rw [show varintDecode (10 :: (varintEncode s.length ++ s)) =
        some (10, varintEncode s.length ++ s) by simp [varintDecode]]
  simp [varint_roundtrip, protoParseFields]

/-- C4: for every string s of arbitrary bytes with length at most 2^14,
decoding the pagination token produced by encoding s returns exactly s and no
error: DecodePageToken (EncodePageToken s) = s. -/
theorem pageToken_roundtrip (s : List Nat) (hbytes : ∀ b ∈ s, b < 256)
    (hlen : s.length ≤ 2 ^ 14) :
    DecodePageToken (EncodePageToken s) = .ok s := by
  unfold DecodePageToken EncodePageToken
  by_cases hs : s = []
  · subst hs; rfl
  · have hball : ∀ b ∈ protoMarshalPageToken s, b < 256 := by
      rw [protoMarshalPageToken, if_neg hs]
      intro b hb
      simp only [List.mem_cons, List.mem_append] at hb
      rcases hb with (rfl | hb) | hb
      · omega
      · exact varintEncode_bytes_lt _ b hb
      · exact hbytes b hb
    rw [base64_roundtrip _ hball]
    exact protoUnmarshal_marshal s hs

/-- Witness for pageToken_roundtrip at the byte string "hi". -/
theorem pageToken_roundtrip_witness :
    (∀ b ∈ [104, 105], b < 256) ∧ ([104, 105] : List Nat).length ≤ 2 ^ 14 ∧
      DecodePageToken (EncodePageToken [104, 105]) = .ok [104, 105] :=
  ⟨by decide, by decide, pageToken_roundtrip [104, 105] (by decide) (by decide)⟩

end Gcsutil

namespace Gcsemu

/-- C9 counterexample: the empty base URL (the dontNeedUrls sentinel) is not
one of the two storage.googleapis.com aliases, yet it is not used unchanged:
it is canonicalized to https://www.googleapis.com/ before composing links. -/
theorem normalizeBaseUrl_empty_changed :
    normalizeBaseUrl "" = "https://www.googleapis.com/" ∧
    initMetaWithUrls "" "bkt" "obj.txt" =
      { selfLink := "https://www.googleapis.com/storage/v1/b/bkt/o/obj.txt"
        mediaLink := "https://www.googleapis.com/storage/v1/b/bkt/o/obj.txt?alt=media" } ∧
    ("" : String) ≠ "https://www.googleapis.com/" := by
  refine ⟨by rfl, by rfl, by decide⟩

/-- C9 (amended): self-links and media-links are composed from the configured
base URL; the two alias hosts are canonicalized to the www.googleapis.com
forms, the empty base URL is treated as https://www.googleapis.com/, and any
other base URL is used unchanged. -/
theorem links_from_base_url (baseUrl bucket filename : String)
    (h1 : baseUrl ≠ "https://storage.googleapis.com/")
    (h2 : baseUrl ≠ "http://storage.googleapis.com/")
    (h3 : baseUrl ≠ "") :
    initMetaWithUrls baseUrl bucket filename =
      { selfLink := baseUrl ++ "storage/v1/b/" ++ bucket ++ "/o/" ++ filename
        mediaLink := baseUrl ++ "storage/v1/b/" ++ bucket ++ "/o/" ++ filename ++ "?alt=media" } ∧
    initMetaWithUrls "https://storage.googleapis.com/" bucket filename =
      initMetaWithUrls "https://www.googleapis.com/" bucket filename ∧
    initMetaWithUrls "http://storage.googleapis.com/" bucket filename =
      initMetaWithUrls "http://www.googleapis.com/" bucket filename ∧
    initMetaWithUrls "" bucket filename =
      initMetaWithUrls "https://www.googleapis.com/" bucket filename := by
  refine ⟨?_, by rfl, by rfl, by rfl⟩
  unfold initMetaWithUrls objectUrl normalizeBaseUrl
  rw [if_neg (by simp [h1, h3]), if_neg h2]

/-- Witness for links_from_base_url at a local base URL. -/
theorem links_from_base_url_witness :
    ("http://localhost:9000/" : String) ≠ "https://storage.googleapis.com/" ∧
    ("http://localhost:9000/" : String) ≠ "http://storage.googleapis.com/" ∧
    ("http://localhost:9000/" : String) ≠ "" ∧
    initMetaWithUrls "http://localhost:9000/" "b" "f.txt" =
      { selfLink := "http://localhost:9000/" ++ "storage/v1/b/" ++ "b" ++ "/o/" ++ "f.txt"
        mediaLink :=
          "http://localhost:9000/" ++ "storage/v1/b/" ++ "b" ++ "/o/" ++ "f.txt" ++ "?alt=media" } :=
  ⟨by decide, by decide, by decide,
    (links_from_base_url "http://localhost:9000/" "b" "f.txt" (by decide) (by decide)
      (by decide)).1⟩

end Gcsemu

namespace Bttest

/-- C1: MutateRow discards the partially mutated row when a batch fails, but
a MutateRows entry does not: with a batch whose first set-cell succeeds and
whose second fails on an unknown family, MutateRow leaves the store
unchanged while the failed MutateRows entry stores the first mutation's
cell. -/
theorem mutateRows_entry_stores_partial_row :
    MutateRow [("cf", none)] [] [114]
        [.setCell "cf" [99] 1000 [118], .setCell "nope" [99] 2000 [119]] 0 =
      ([], some "unknown family nope") ∧
    MutateRowsEntry [("cf", none)] [] [114]
        [.setCell "cf" [99] 1000 [118], .setCell "nope" [99] 2000 [119]] 0 =
      ([{ key := [114],
          families := [{
            name := "cf",
            columns := [{
              qualifier := [99],
              cells := [{ timestampMicros := 1000, value := [118], labels := [] }] }] }] }],
        false) :=
  ⟨rfl, rfl⟩

theorem validTimestamp_of_neg {ts : Int} (h : ts < 0) : validTimestamp ts = false := by
  unfold validTimestamp minValidMilliSeconds
  rw [if_pos (Or.inl h)]

theorem validTimestamp_of_mod {ts : Int} (h : ts % 1000 ≠ 0) : validTimestamp ts = false := by
  unfold validTimestamp
  split
  · rfl
  · exact decide_eq_false h

/-- C6: for a set-cell mutation on a declared family, with the server clock
nonnegative and in range: the timestamp INT64_MAX − (INT64_MAX mod 1000) is
accepted; that bound plus 1000 is rejected as invalid; any negative timestamp
other than the sentinel −1 is rejected; a timestamp that is not a multiple of
1000 (and is not the sentinel) is rejected; and the sentinel −1 is replaced
by the clock in microseconds rounded down to a multiple of 1000. -/
theorem setCell_timestamp_validation (tbl : FamMap) (r : Row) (fam : String)
    (q v : Bytes) (now : Int) (hfam : famDefined tbl fam = true)
    (hnow0 : 0 ≤ now) (hnowUB : now.tdiv 1000 ≤ maxValidMilliSeconds) :
    applyMutation tbl r now (.setCell fam q maxValidMilliSeconds v) =
      .ok (modifyCellsAt r fam q (fun cs => appendOrReplaceCell cs
        { timestampMicros := maxValidMilliSeconds, value := v, labels := [] })) ∧
    applyMutation tbl r now (.setCell fam q (maxValidMilliSeconds + 1000) v) =
      .error "invalid timestamp" ∧
    (∀ ts : Int, ts < 0 → ts ≠ -1 →
      applyMutation tbl r now (.setCell fam q ts v) = .error "invalid timestamp") ∧
    (∀ ts : Int, ts % 1000 ≠ 0 → ts ≠ -1 →
      applyMutation tbl r now (.setCell fam q ts v) = .error "invalid timestamp") ∧
    applyMutation tbl r now (.setCell fam q (-1) v) =
      .ok (modifyCellsAt r fam q (fun cs => appendOrReplaceCell cs
        { timestampMicros := newTimestamp now, value := v, labels := [] })) ∧
    newTimestamp now % 1000 = 0 ∧
    newTimestamp now ≤ now.tdiv 1000 ∧ now.tdiv 1000 < newTimestamp now + 1000 := by
  have hmax_ne : (maxValidMilliSeconds : Int) ≠ -1 := by decide
  have hval : validTimestamp maxValidMilliSeconds = true := by decide
  have hne2 : (maxValidMilliSeconds + 1000 : Int) ≠ -1 := by decide
  have hval2 : validTimestamp (maxValidMilliSeconds + 1000) = false := by decide
  have hmt0 : 0 ≤ now.tdiv 1000 := by
    rw [Int.tdiv_eq_ediv hnow0 (by norm_num)]
    exact Int.ediv_nonneg hnow0 (by norm_num)
  have htm : (now.tdiv 1000).tmod 1000 = now.tdiv 1000 % 1000 :=
    Int.tmod_eq_emod hmt0 (by norm_num)
  have hnt : newTimestamp now = now.tdiv 1000 - now.tdiv 1000 % 1000 := by
    simp only [newTimestamp]
    rw [htm]
  have hntmod : newTimestamp now % 1000 = 0 := by rw [hnt]; omega
  have hnt0 : 0 ≤ newTimestamp now := by rw [hnt]; omega
  have hntub : newTimestamp now ≤ maxValidMilliSeconds := by rw [hnt]; omega
  have hvalNew : validTimestamp (newTimestamp now) = true := by
    unfold validTimestamp minValidMilliSeconds
    rw [if_neg (by push_neg; exact ⟨hnt0, hntub⟩)]
    exact decide_eq_true hntmod
  refine ⟨?_, ?_, ?_, ?_, ?_, hntmod, ?_, ?_⟩
  · simp [applyMutation, hfam, hmax_ne, hval]
  · simp [applyMutation, hfam, hne2, hval2]
  · intro ts h1 h2
    simp [applyMutation, hfam, h2, validTimestamp_of_neg h1]
  · intro ts h1 h2
    simp [applyMutation, hfam, h2, validTimestamp_of_mod h1]
  · simp [applyMutation, hfam, hvalNew]
  · rw [hnt]; omega
  · rw [hnt]; omega

/-- Witness for setCell_timestamp_validation at a concrete table, row and
clock. -/
theorem setCell_timestamp_validation_witness :
    famDefined [("cf", none)] "cf" = true ∧ (0 : Int) ≤ 1234567891 ∧
      (1234567891 : Int).tdiv 1000 ≤ maxValidMilliSeconds ∧
      applyMutation [("cf", none)] { key := [114], families := [] } 1234567891
          (.setCell "cf" [99] (-1) [118]) =
        .ok (modifyCellsAt { key := [114], families := [] } "cf" [99]
          (fun cs => appendOrReplaceCell cs
            { timestampMicros := newTimestamp 1234567891, value := [118], labels := [] })) :=
  ⟨by decide, by decide, by decide,
    (setCell_timestamp_validation [("cf", none)] { key := [114], families := [] } "cf"
      [99] [118] 1234567891 (by decide) (by decide) (by decide)).2.2.2.2.1⟩

/-- C2: on a row whose first column holds fewer cells than the offset, the
cells-per-row-offset filter as coded drops every cell of every column up to
the first column larger than the full offset — here all of them — instead of
dropping exactly the first N cells of the row: the offset is decremented by
the length of the column slice after it was truncated to empty, so it never
decreases. -/
theorem cellsPerRowOffset_skips_columns :
    filterRow (some (.cellsPerRowOffsetFilter 2)) offsetSampleRow =
      .ok (true, offsetSampleRowCode) ∧
    offsetSampleRowCode ≠ offsetSampleRowClaim := by
  refine ⟨by simp only [filterRow]; rfl, by decide⟩

/-- C7: the apply-label transformer's pattern [a-z0-9\-]{1,15} is compiled
unanchored and tested with MatchString (substring search), so a label is
accepted whenever it merely contains a run of label characters: the 16
character label of all x's (longer than 15) and "A-B" (an invalid label
containing '-') are both accepted and applied, while a label with no
character of the class is the only kind rejected. -/
theorem applyLabel_substring_match :
    modifyCell (some (.applyLabelTransformer "xxxxxxxxxxxxxxxx")) labelSampleCell =
      .ok { timestampMicros := 5000, value := [1], labels := ["xxxxxxxxxxxxxxxx"] } ∧
    modifyCell (some (.applyLabelTransformer "A-B")) labelSampleCell =
      .ok { timestampMicros := 5000, value := [1], labels := ["A-B"] } ∧
    modifyCell (some (.applyLabelTransformer "???")) labelSampleCell =
      .error "apply_label_transformer must match RE2" := by
  refine ⟨by rfl, by rfl, by rfl⟩

theorem filterCells_sink (fam : String) (q : Bytes) (cs : List Cell) :
    filterCells (some .sink) fam q cs = .ok cs := by
  induction cs with
  | nil => rfl
  | cons c cs ih =>
    rw [filterCells, ih]
    rfl

theorem filterColumns_sink (fam : String) (cols : List Column) :
    filterColumns (some .sink) fam cols = .ok cols := by
  induction cols with
  | nil => rfl
  | cons c cols ih => rw [filterColumns, filterCells_sink, ih]

theorem filterRowCellsFams_sink (fams : List Family) :
    filterRowCellsFams (some .sink) fams = .ok fams := by
  induction fams with
  | nil => rfl
  | cons f fams ih => rw [filterRowCellsFams, filterColumns_sink, ih]

/-- C10 (amended): a filter tag the evaluator does not recognize (here the
sink filter) is silently ignored: filterRow returns no error, leaves every
cell of the row unchanged, and returns match = true exactly when the row
holds at least one cell (false on a row with no cells). -/
theorem unknown_filter_ignored (r : Row) :
    filterRow (some .sink) r = .ok (decide (0 < countCellsFams r.families), r) := by
  simp only [filterRow, filterRowCellsFams_sink]

/-- C10 counterexample: on a row with a column but no cells, filterRow with
the unrecognized sink filter returns match = false (cellCount > 0 fails),
not match = true as claimed. -/
theorem sink_filter_zero_cell_row :
    filterRow (some .sink) zeroCellRow = .ok (false, zeroCellRow) ∧ (false : Bool) ≠ true := by
  refine ⟨by simp only [filterRow]; rfl, by decide⟩

theorem colCells_updateColumns (q : Bytes) (t : List Cell → List Cell) :
    ∀ cols : List Column,
      (match (updateColumns q (updColAt t) cols).find?
          (fun c => c.qualifier = q) with
        | none => []
        | some c => c.cells) =
      t (match cols.find? (fun c => c.qualifier = q) with
        | none => []
        | some c => c.cells)
  | [] => by simp [updateColumns, updColAt, List.find?]
  | c :: rest => by
    by_cases hc : c.qualifier = q
    · simp [updateColumns, updColAt, hc, List.find?]
    · simp only [updateColumns, if_neg hc, List.find?, hc, decide_False]
      exact colCells_updateColumns q t rest

theorem famCells_updateFamilies (fam : String) (q : Bytes) (t : List Cell → List Cell) :
    ∀ fams : List Family,
      (match (updateFamilies fam (updFamAt q t) fams).find?
          (fun f => f.name = fam) with
        | none => []
        | some f =>
          match f.columns.find? (fun c => c.qualifier = q) with
          | none => []
          | some c => c.cells) =
      t (match fams.find? (fun f => f.name = fam) with
        | none => []
        | some f =>
          match f.columns.find? (fun c => c.qualifier = q) with
          | none => []
          | some c => c.cells)
  | [] => by
    simp only [updateFamilies, updFamAt, List.find?, decide_True]
    exact colCells_updateColumns q t []
  | f :: rest => by
    by_cases hf : f.name = fam
    · simp only [updateFamilies, updFamAt, if_pos hf, List.find?, hf, decide_True]
      exact colCells_updateColumns q t f.columns
    · simp only [updateFamilies, if_neg hf, List.find?, hf, decide_False]
      exact famCells_updateFamilies fam q t rest

theorem cellsAt_modifyCellsAt (r : Row) (fam : String) (q : Bytes) (t : List Cell → List Cell) :
    cellsAt (modifyCellsAt r fam q t) fam q = t (cellsAt r fam q) := by
  unfold cellsAt modifyCellsAt getFamily getColumn
  exact famCells_updateFamilies fam q t r.families

theorem insertCell_front (c : Cell) (cs : List Cell)
    (h : ∀ d ∈ cs, d.timestampMicros ≤ c.timestampMicros) :
    insertCellByDescTS c cs = c :: cs := by
  cases cs with
  | nil => rfl
  | cons d ds =>
    rw [insertCellByDescTS, if_pos (h d (by simp))]

theorem sortByDescTS_sorted_id : ∀ cs : List Cell, cellsStrictDesc cs → sortByDescTS cs = cs
  | [], _ => rfl
  | c :: cs, h => by
    rw [sortByDescTS, sortByDescTS_sorted_id cs ((List.pairwise_cons.mp h).2)]
    exact insertCell_front c cs (fun d hd => le_of_lt ((List.pairwise_cons.mp h).1 d hd))

theorem sortByDescTS_append_max (cs : List Cell) (c : Cell) (hcs : cellsStrictDesc cs)
    (h : ∀ d ∈ cs, d.timestampMicros < c.timestampMicros) :
    sortByDescTS (cs ++ [c]) = c :: cs := by
  induction cs with
  | nil => rfl
  | cons a rest ih =>
    rw [List.cons_append, sortByDescTS,
      ih ((List.pairwise_cons.mp hcs).2) (fun d hd => h d (by simp [hd]))]
    rw [insertCellByDescTS, if_neg (by have := h a (by simp); omega)]
    rw [insertCell_front a rest
      (fun d hd => le_of_lt ((List.pairwise_cons.mp hcs).1 d hd))]

theorem replaceCellByTS_none (c : Cell) :
    ∀ cs : List Cell, (∀ d ∈ cs, d.timestampMicros ≠ c.timestampMicros) →
      replaceCellByTS cs c = none
  | [], _ => rfl
  | d :: ds, h => by
    rw [replaceCellByTS, if_neg (h d (by simp)),
      replaceCellByTS_none c ds (fun x hx => h x (by simp [hx]))]

/-- When the new cell's timestamp is at least every existing timestamp and
the existing cells are strictly descending, appendOrReplaceCell puts the new
cell first: it replaces an equal-timestamp head or is inserted in front, and
the result is strictly descending again. -/
theorem appendOrReplaceCell_head (cs : List Cell) (c : Cell) (hcs : cellsStrictDesc cs)
    (hmax : ∀ d ∈ cs, d.timestampMicros ≤ c.timestampMicros) :
    ∃ rest, appendOrReplaceCell cs c = c :: rest ∧ cellsStrictDesc (c :: rest) := by
  cases cs with
  | nil => exact ⟨[], rfl, List.pairwise_singleton _ _⟩
  | cons d ds =>
    by_cases hd : d.timestampMicros = c.timestampMicros
    · refine ⟨ds, ?_, ?_⟩
      · rw [appendOrReplaceCell, replaceCellByTS, if_pos hd]
        have hsorted : cellsStrictDesc (c :: ds) := by
          rw [cellsStrictDesc, List.pairwise_cons]
          refine ⟨fun x hx => ?_, (List.pairwise_cons.mp hcs).2⟩
          have := (List.pairwise_cons.mp hcs).1 x hx
          omega
        show sortByDescTS (c :: ds) = c :: ds
        exact sortByDescTS_sorted_id _ hsorted
      · rw [cellsStrictDesc, List.pairwise_cons]
        refine ⟨fun x hx => ?_, (List.pairwise_cons.mp hcs).2⟩
        have := (List.pairwise_cons.mp hcs).1 x hx
        omega
    · have hne : ∀ x ∈ d :: ds, x.timestampMicros ≠ c.timestampMicros := by
        intro x hx
        rcases List.mem_cons.mp hx with rfl | hx2
        · exact hd
        · have h1 := (List.pairwise_cons.mp hcs).1 x hx2
          have h2 := hmax d (by simp)
          omega
      have hlt : ∀ x ∈ d :: ds, x.timestampMicros < c.timestampMicros := by
        intro x hx
        have := hmax x hx
        have := hne x hx
        omega
      refine ⟨d :: ds, ?_, ?_⟩
      · rw [appendOrReplaceCell, replaceCellByTS_none c _ hne]
        show sortByDescTS ((d :: ds) ++ [c]) = c :: d :: ds
        exact sortByDescTS_append_max _ c hcs hlt
      · rw [cellsStrictDesc, List.pairwise_cons]
        exact ⟨hlt, hcs⟩

theorem putUint64be_length (v : Int) : (putUint64be v).length = 8 := rfl

theorem uint64be_putUint64be (v : Int) : uint64be (putUint64be v) = ((v % 2 ^ 64).toNat) := by
  have h0 : 0 ≤ v % 2 ^ 64 := Int.emod_nonneg v (by norm_num)
  have h1 : v % 2 ^ 64 < 2 ^ 64 := Int.emod_lt_of_pos v (by norm_num)
  have h2 : (v % 2 ^ 64).toNat < 2 ^ 64 := by omega
  simp only [putUint64be, uint64be, List.foldl]
  omega

theorem putUint64be_congr {v w : Int} (h : v % 2 ^ 64 = w % 2 ^ 64) :
    putUint64be v = putUint64be w := by
  unfold putUint64be
  rw [h]

theorem maxTimestamp_le_right (x y : Int) : y ≤ maxTimestamp x y := by
  unfold maxTimestamp
  split <;> omega

theorem int64OfUint64_putUint64be_emod (acc : Int) :
    int64OfUint64 (uint64be (putUint64be acc)) % 2 ^ 64 = acc % 2 ^ 64 := by
  rw [uint64be_putUint64be]
  have h0 : 0 ≤ acc % 2 ^ 64 := Int.emod_nonneg acc (by norm_num)
  have h1 : acc % 2 ^ 64 < 2 ^ 64 := Int.emod_lt_of_pos acc (by norm_num)
  unfold int64OfUint64
  split <;> omega

theorem rmwRules_increment_aux (cols : FamMap) (now : Int) (fam : String) (q : Bytes)
    (hfam : famDefined cols fam = true) :
    ∀ (amounts : List Int) (r res : Row) (acc : Int) (c0 : Cell) (rest0 : List Cell),
      cellsAt r fam q = c0 :: rest0 →
      cellsStrictDesc (cellsAt r fam q) →
      c0.value = putUint64be acc →
      ∃ r' res' c' rest',
        rmwRules cols now (r, res) (amounts.map (RMWRule.incrementAmount fam q)) =
          .ok (r', res') ∧
        cellsAt r' fam q = c' :: rest' ∧
        c'.value = putUint64be (acc + amounts.sum)
  | [], r, res, acc, c0, rest0, hcells, _, hval => by
    refine ⟨r, res, c0, rest0, rfl, hcells, ?_⟩
    rw [hval, List.sum_nil, add_zero]
  | a :: rest, r, res, acc, c0, rest0, hcells, hdesc, hval => by
    have hlen : c0.value.length = 8 := by rw [hval]; rfl
    have hne0 : c0.value ≠ [] := by
      intro hh
      rw [hh] at hlen
      simp at hlen
    have hval8 : uint64be c0.value = (acc % 2 ^ 64).toNat := by
      rw [hval, uint64be_putUint64be]
    set newCell : Cell :=
      { timestampMicros := maxTimestamp (newTimestamp now) c0.timestampMicros
        value := putUint64be (int64OfUint64 (uint64be c0.value) + a), labels := [] } with hnc
    have hstep : rmwRules cols now (r, res) ((a :: rest).map (RMWRule.incrementAmount fam q)) =
        rmwRules cols now
          (modifyCellsAt r fam q (fun cs0 => appendOrReplaceCell cs0 newCell),
            setResultCell res fam q newCell)
          (rest.map (RMWRule.incrementAmount fam q)) := by
      rw [List.map_cons, rmwRules, applyRMWRule]
      simp [hfam, hcells, hlen, hne0, ← hnc]
    have hmax : ∀ d ∈ cellsAt r fam q, d.timestampMicros ≤ newCell.timestampMicros := by
      intro d hd
      rw [hcells] at hd
      have hle := maxTimestamp_le_right (newTimestamp now) c0.timestampMicros
      rcases List.mem_cons.mp hd with rfl | hd2
      · simpa [hnc] using hle
      · rw [hcells] at hdesc
        have := (List.pairwise_cons.mp hdesc).1 d hd2
        simp only [hnc]
        omega
    have hdesc0 : cellsStrictDesc (cellsAt r fam q) := hdesc
    obtain ⟨rest', happ, hdesc'⟩ :=
      appendOrReplaceCell_head (cellsAt r fam q) newCell (by rw [hcells] at hdesc0 ⊢; exact hdesc0) hmax
    have hcells' :
        cellsAt (modifyCellsAt r fam q (fun cs0 => appendOrReplaceCell cs0 newCell)) fam q =
          newCell :: rest' := by
      rw [cellsAt_modifyCellsAt]
      exact happ
    have hvalNew : newCell.value = putUint64be (acc + a) := by
      have h2 : int64OfUint64 (uint64be c0.value) % 2 ^ 64 = acc % 2 ^ 64 := by
        rw [hval]
        exact int64OfUint64_putUint64be_emod acc
      simp only [hnc]
      apply putUint64be_congr
      omega
    obtain ⟨r', res', c', rest2', hrun, hcellsFin, hvalFin⟩ :=
      rmwRules_increment_aux cols now fam q hfam rest
        (modifyCellsAt r fam q (fun cs0 => appendOrReplaceCell cs0 newCell))
        (setResultCell res fam q newCell) (acc + a) newCell rest'
        hcells' (by rw [hcells']; exact hdesc') hvalNew
    refine ⟨r', res', c', rest2', ?_, hcellsFin, ?_⟩
    · rw [hstep, hrun]
    · rw [hvalFin, List.sum_cons]
      ring_nf

/-- C5 (amended): for every sequence of read-modify-write increment rules
on one column of a row whose addressed column is absent, whose newest cell
holds an empty value (a nil slice after the proto round-trip, treated as an
absent previous value), or whose newest cell holds exactly 8 bytes, the
engine succeeds and the final (newest) cell of that column is the 8-byte
big-endian encoding of (initial value, absent or empty treated as 0, plus
the sum of all applied amounts) modulo 2^64; an increment on an existing
non-empty value whose length is not 8 bytes fails. -/
theorem rmw_increment_sum (cols : FamMap) (now : Int) (fam : String) (q : Bytes)
    (hfam : famDefined cols fam = true) :
    (∀ (amounts : List Int) (r res : Row) (init : Int),
      cellsStrictDesc (cellsAt r fam q) →
      (cellsAt r fam q = [] ∧ init = 0) ∨
        (∃ c rest2, cellsAt r fam q = c :: rest2 ∧ c.value = [] ∧ init = 0) ∨
        (∃ c rest2, cellsAt r fam q = c :: rest2 ∧ c.value.length = 8 ∧
          init = int64OfUint64 (uint64be c.value)) →
      amounts ≠ [] →
      ∃ r' res' c' rest',
        rmwRules cols now (r, res) (amounts.map (RMWRule.incrementAmount fam q)) =
          .ok (r', res') ∧
        cellsAt r' fam q = c' :: rest' ∧
        c'.value = putUint64be (init + amounts.sum) ∧
        uint64be c'.value = ((init + amounts.sum) % 2 ^ 64).toNat) ∧
    (∀ (r res : Row) (a : Int) (c : Cell) (rest2 : List Cell) (rules : List RMWRule),
      cellsAt r fam q = c :: rest2 → c.value ≠ [] → c.value.length ≠ 8 →
      rmwRules cols now (r, res) (.incrementAmount fam q a :: rules) =
        .error "increment on non-64-bit value") := by
  constructor
  · intro amounts r res init hdesc hinit hne
    rcases amounts with _ | ⟨a, rest⟩
    · exact absurd rfl hne
    rcases hinit with ⟨hEmpty, rfl⟩ | ⟨c, rest2, hcells, hvnil, rfl⟩ |
      ⟨c, rest2, hcells, hlen, hinitdef⟩
    · set newCell : Cell :=
        { timestampMicros := newTimestamp now, value := putUint64be a, labels := [] }
        with hnc
      have hstep : rmwRules cols now (r, res) ((a :: rest).map (RMWRule.incrementAmount fam q)) =
          rmwRules cols now
            (modifyCellsAt r fam q (fun cs0 => appendOrReplaceCell cs0 newCell),
              setResultCell res fam q newCell)
            (rest.map (RMWRule.incrementAmount fam q)) := by
        rw [List.map_cons, rmwRules, applyRMWRule]
        simp [hfam, hEmpty, ← hnc]
      have hcells' :
          cellsAt (modifyCellsAt r fam q (fun cs0 => appendOrReplaceCell cs0 newCell)) fam q
            = [newCell] := by
        rw [cellsAt_modifyCellsAt, hEmpty]
        rfl
      obtain ⟨r', res', c', rest', hrun, hcf, hvf⟩ :=
        rmwRules_increment_aux cols now fam q hfam rest _ _ a newCell []
          hcells' (by rw [hcells']; exact List.pairwise_singleton _ _) rfl
      refine ⟨r', res', c', rest', ?_, hcf, ?_, ?_⟩
      · rw [hstep, hrun]
      · rw [hvf, List.sum_cons]
        congr 1
        ring
      · rw [hvf, uint64be_putUint64be, List.sum_cons, zero_add]
    · set newCell : Cell :=
        { timestampMicros := maxTimestamp (newTimestamp now) c.timestampMicros
          value := putUint64be a, labels := [] } with hnc
      have hstep : rmwRules cols now (r, res) ((a :: rest).map (RMWRule.incrementAmount fam q)) =
          rmwRules cols now
            (modifyCellsAt r fam q (fun cs0 => appendOrReplaceCell cs0 newCell),
              setResultCell res fam q newCell)
            (rest.map (RMWRule.incrementAmount fam q)) := by
        rw [List.map_cons, rmwRules, applyRMWRule]
        simp [hfam, hcells, hvnil, ← hnc]
      have hmax : ∀ d ∈ cellsAt r fam q, d.timestampMicros ≤ newCell.timestampMicros := by
        intro d hd
        rw [hcells] at hd
        have hle := maxTimestamp_le_right (newTimestamp now) c.timestampMicros
        rcases List.mem_cons.mp hd with rfl | hd2
        · simpa [hnc] using hle
        · rw [hcells] at hdesc
          have := (List.pairwise_cons.mp hdesc).1 d hd2
          simp only [hnc]
          omega
      obtain ⟨rest', happ, hdesc'⟩ :=
        appendOrReplaceCell_head (cellsAt r fam q) newCell hdesc hmax
      have hcells' :
          cellsAt (modifyCellsAt r fam q (fun cs0 => appendOrReplaceCell cs0 newCell)) fam q
            = newCell :: rest' := by
        rw [cellsAt_modifyCellsAt]
        exact happ
      obtain ⟨r', res', c', rest2', hrun, hcf, hvf⟩ :=
        rmwRules_increment_aux cols now fam q hfam rest _ _ a newCell rest'
          hcells' (by rw [hcells']; exact hdesc') rfl
      refine ⟨r', res', c', rest2', ?_, hcf, ?_, ?_⟩
      · rw [hstep, hrun]
      · rw [hvf, List.sum_cons]
        congr 1
        ring
      · rw [hvf, uint64be_putUint64be, List.sum_cons, zero_add]
    · set newCell : Cell :=
        { timestampMicros := maxTimestamp (newTimestamp now) c.timestampMicros
          value := putUint64be (int64OfUint64 (uint64be c.value) + a), labels := [] } with hnc
      have hstep : rmwRules cols now (r, res) ((a :: rest).map (RMWRule.incrementAmount fam q)) =
          rmwRules cols now
            (modifyCellsAt r fam q (fun cs0 => appendOrReplaceCell cs0 newCell),
              setResultCell res fam q newCell)
            (rest.map (RMWRule.incrementAmount fam q)) := by
        have hne : c.value ≠ [] := by
          intro hh
          rw [hh] at hlen
          simp at hlen
        rw [List.map_cons, rmwRules, applyRMWRule]
        simp [hfam, hcells, hlen, hne, ← hnc]
      have hmax : ∀ d ∈ cellsAt r fam q, d.timestampMicros ≤ newCell.timestampMicros := by
        intro d hd
        rw [hcells] at hd
        have hle := maxTimestamp_le_right (newTimestamp now) c.timestampMicros
        rcases List.mem_cons.mp hd with rfl | hd2
        · simpa [hnc] using hle
        · rw [hcells] at hdesc
          have := (List.pairwise_cons.mp hdesc).1 d hd2
          simp only [hnc]
          omega
      obtain ⟨rest', happ, hdesc'⟩ :=
        appendOrReplaceCell_head (cellsAt r fam q) newCell hdesc hmax
      have hcells' :
          cellsAt (modifyCellsAt r fam q (fun cs0 => appendOrReplaceCell cs0 newCell)) fam q
            = newCell :: rest' := by
        rw [cellsAt_modifyCellsAt]
        exact happ
      have hvalNew : newCell.value = putUint64be (init + a) := by
        simp only [hnc]
        rw [hinitdef]
      obtain ⟨r', res', c', rest2', hrun, hcf, hvf⟩ :=
        rmwRules_increment_aux cols now fam q hfam rest _ _ (init + a) newCell rest'
          hcells' (by rw [hcells']; exact hdesc') hvalNew
      refine ⟨r', res', c', rest2', ?_, hcf, ?_, ?_⟩
      · rw [hstep, hrun]
      · rw [hvf, List.sum_cons]
        congr 1
        ring
      · rw [hvf, uint64be_putUint64be, List.sum_cons]
        have harith : init + a + rest.sum = init + (a + rest.sum) := by ring
        rw [harith]
  · intro r res a c rest2 rules hcells hne hlen
    rw [rmwRules, applyRMWRule]
    simp [hfam, hcells, hne, hlen]

/-- Witness for rmw_increment_sum: increments of 1 and then 2 on an absent
column of a fresh row end with the 8-byte big-endian encoding of 3. -/
theorem rmw_increment_sum_witness :
    famDefined [("cf", none)] "cf" = true ∧
    (∃ r' res' c' rest',
      rmwRules [("cf", none)] 0
          ({ key := [114], families := [] }, { key := [114], families := [] })
          ([1, 2].map (RMWRule.incrementAmount "cf" [99])) = .ok (r', res') ∧
      cellsAt r' "cf" [99] = c' :: rest' ∧
      c'.value = putUint64be ((0 : Int) + [1, 2].sum) ∧
      uint64be c'.value = (((0 : Int) + [1, 2].sum) % 2 ^ 64).toNat) :=
  ⟨by decide, (rmw_increment_sum [("cf", none)] 0 "cf" [99] (by decide)).1 [1, 2]
    { key := [114], families := [] } { key := [114], families := [] } 0
    (by exact List.Pairwise.nil) (Or.inl ⟨rfl, rfl⟩) (by decide)⟩

/-- Counterexample to C5 as stated: an increment applied to a column whose
existing newest cell holds an empty value — length 0, hence not 8 — does not
fail.  The prevVal != nil guard of ReadModifyWriteRow sees the empty value
as a nil slice (every stored row is round-tripped through proto, which
leaves an empty bytes field nil), treats the previous value as absent, and
the increment succeeds from 0, writing the 8-byte big-endian encoding of
the amount. -/
theorem rmw_increment_empty_value_succeeds :
    c5Cell.value.length ≠ 8 ∧
    ∃ r' res',
      rmwRules [("cf", none)] 0 (c5Row, c5Res)
        [RMWRule.incrementAmount "cf" [99] 5] = .ok (r', res') ∧
      cellsAt r' "cf" [99] =
        [{ timestampMicros := 1000, value := putUint64be 5, labels := [] }] :=
  ⟨by decide, _, _, rfl, rfl⟩

theorem srLess_true_start_le {c d : SimpleRange} (h : srLess c d = true) :
    c.start ≤ d.start := by
  unfold srLess at h
  split at h
  · exact le_of_lt (by assumption)
  · split at h
    · exact absurd h (by simp)
    · have h1 : ¬ c.start < d.start := by assumption
      have h2 : ¬ d.start < c.start := by assumption
      exact le_of_not_lt h2

theorem srLess_false_start_le {c d : SimpleRange} (h : srLess c d = false) :
    d.start ≤ c.start := by
  unfold srLess at h
  split at h
  · exact absurd h (by simp)
  · split at h
    · exact le_of_lt (by assumption)
    · have h1 : ¬ c.start < d.start := by assumption
      exact le_of_not_lt h1

theorem mem_insertSR {x c : SimpleRange} : ∀ {l : List SimpleRange},
    x ∈ insertSR c l → x = c ∨ x ∈ l := by
  intro l
  induction l with
  | nil => intro h; simp [insertSR] at h; exact Or.inl h
  | cons d ds ih =>
    intro h
    rw [insertSR] at h
    split at h
    · rcases List.mem_cons.mp h with rfl | h2
      · exact Or.inl rfl
      · exact Or.inr h2
    · rcases List.mem_cons.mp h with rfl | h2
      · exact Or.inr (List.mem_cons_self _ _)
      · rcases ih h2 with rfl | h3
        · exact Or.inl rfl
        · exact Or.inr (List.mem_cons_of_mem _ h3)

theorem insertSR_pairwise (c : SimpleRange) :
    ∀ l : List SimpleRange, l.Pairwise (fun a b => a.start ≤ b.start) →
      (insertSR c l).Pairwise (fun a b => a.start ≤ b.start)
  | [], _ => List.pairwise_singleton _ _
  | d :: ds, h => by
    rw [insertSR]
    rcases hc : srLess c d with _ | _
    · rw [if_neg (by simp [hc])]
      rw [List.pairwise_cons] at h ⊢
      refine ⟨?_, insertSR_pairwise c ds h.2⟩
      intro x hx
      rcases mem_insertSR hx with rfl | h2
      · exact srLess_false_start_le hc
      · exact h.1 x h2
    · rw [if_pos (by simp [hc])]
      rw [List.pairwise_cons] at h ⊢
      have hcd := srLess_true_start_le hc
      refine ⟨?_, List.pairwise_cons.mpr h⟩
      intro x hx
      rcases List.mem_cons.mp hx with rfl | h2
      · exact hcd
      · exact le_trans hcd (h.1 x h2)

theorem sortSimpleRanges_pairwise :
    ∀ l : List SimpleRange,
      (sortSimpleRanges l).Pairwise (fun a b => a.start ≤ b.start)
  | [] => List.Pairwise.nil
  | c :: cs => insertSR_pairwise c _ (sortSimpleRanges_pairwise cs)

theorem insertSR_perm (c : SimpleRange) :
    ∀ l : List SimpleRange, (insertSR c l).Perm (c :: l)
  | [] => List.Perm.refl _
  | d :: ds => by
    rw [insertSR]
    split
    · exact List.Perm.refl _
    · exact ((insertSR_perm c ds).cons d).trans (List.Perm.swap c d ds)

theorem sortSimpleRanges_perm :
    ∀ l : List SimpleRange, (sortSimpleRanges l).Perm l
  | [] => List.Perm.refl _
  | c :: cs =>
    (insertSR_perm c (sortSimpleRanges cs)).trans ((sortSimpleRanges_perm cs).cons c)

theorem endCmp_lt {a b : SimpleRange} (h : endCmp a b = .lt) :
    a.stop ≠ [] ∧ (b.stop = [] ∨ a.stop < b.stop) := by
  unfold endCmp at h
  split at h
  · exact absurd h (by simp)
  · rename_i h1
    split at h
    · rename_i h2
      refine ⟨fun ha => h1 ⟨ha, h2⟩, Or.inl h2⟩
    · split at h
      · exact absurd h (by simp)
      · split at h
        · rename_i h2 h3 h4
          exact ⟨h3, Or.inr h4⟩
        · split at h
          · exact absurd h (by simp)
          · exact absurd h (by simp)

theorem endCmp_not_lt {a b : SimpleRange} (h : ¬ endCmp a b = .lt) :
    a.stop = [] ∨ (b.stop ≠ [] ∧ b.stop ≤ a.stop) := by
  unfold endCmp at h
  split at h
  · rename_i h1
    exact Or.inl h1.1
  · split at h
    · exact absurd rfl h
    · split at h
      · rename_i h1 h2 h3
        exact Or.inl h3
      · split at h
        · exact absurd rfl h
        · rename_i h1 h2 h3 h4
          exact Or.inr ⟨h2, le_of_not_lt h4⟩

theorem mergeSR_mem {a b m : SimpleRange} (hm : mergeSR a b = some m)
    (hab : a.start ≤ b.start) (x : keyType) :
    srMem x m ↔ srMem x a ∨ srMem x b := by
  unfold mergeSR at hm
  split at hm
  · exact absurd hm (by simp)
  · rename_i hdisj
    push_neg at hdisj
    simp only [Option.some.injEq] at hm
    subst hm
    rcases hE : endCmp a b with _ | _ | _
    · -- endCmp = lt: merged stop is b.stop
      obtain ⟨hane, hOr⟩ := endCmp_lt hE
      have hba : b.start ≤ a.stop := hdisj hane
      simp only [srMem, hE]
      constructor
      · rintro ⟨hs, he⟩
        by_cases hx : x < a.stop
        · exact Or.inl ⟨hs, Or.inr hx⟩
        · exact Or.inr ⟨le_trans hba (le_of_not_lt hx), he⟩
      · rintro (⟨hs, he⟩ | ⟨hs, he⟩)
        · refine ⟨hs, ?_⟩
          rcases he with he | he
          · exact absurd he hane
          · rcases hOr with hb | hb
            · exact Or.inl hb
            · exact Or.inr (lt_trans he hb)
        · exact ⟨le_trans hab hs, he⟩
    · -- endCmp = eq: merged stop is a.stop
      have hfact := endCmp_not_lt (a := a) (b := b) (by rw [hE]; simp)
      simp only [srMem, hE]
      constructor
      · rintro ⟨hs, he⟩
        exact Or.inl ⟨hs, he⟩
      · rintro (⟨hs, he⟩ | ⟨hs, he⟩)
        · exact ⟨hs, he⟩
        · refine ⟨le_trans hab hs, ?_⟩
          rcases hfact with ha | ⟨hbne, hba⟩
          · exact Or.inl ha
          · rcases he with he | he
            · exact absurd he hbne
            · exact Or.inr (lt_of_lt_of_le he hba)
    · -- endCmp = gt: merged stop is a.stop
      have hfact := endCmp_not_lt (a := a) (b := b) (by rw [hE]; simp)
      simp only [srMem, hE]
      constructor
      · rintro ⟨hs, he⟩
        exact Or.inl ⟨hs, he⟩
      · rintro (⟨hs, he⟩ | ⟨hs, he⟩)
        · exact ⟨hs, he⟩
        · refine ⟨le_trans hab hs, ?_⟩
          rcases hfact with ha | ⟨hbne, hba⟩
          · exact Or.inl ha
          · rcases he with he | he
            · exact absurd he hbne
            · exact Or.inr (lt_of_lt_of_le he hba)

theorem mergeSR_start {a b m : SimpleRange} (hm : mergeSR a b = some m) :
    m.start = a.start := by
  unfold mergeSR at hm
  split at hm
  · exact absurd hm (by simp)
  · simp only [Option.some.injEq] at hm
    subst hm
    rfl

theorem mergeSR_none {a b : SimpleRange} (hm : mergeSR a b = none) :
    a.stop ≠ [] ∧ a.stop < b.start := by
  unfold mergeSR at hm
  split at hm
  · assumption
  · exact absurd hm (by simp)

theorem mergeSR_stop_nil {a b m : SimpleRange} (hm : mergeSR a b = some m)
    (h : a.stop = [] ∨ b.stop = []) : m.stop = [] := by
  unfold mergeSR at hm
  split at hm
  · exact absurd hm (by simp)
  · simp only [Option.some.injEq] at hm
    subst hm
    rcases hE : endCmp a b with _ | _ | _
    · obtain ⟨hane, _⟩ := endCmp_lt hE
      rcases h with h | h
      · exact absurd h hane
      · simp [hE, h]
    · have hfact := endCmp_not_lt (a := a) (b := b) (by rw [hE]; simp)
      rcases h with h | h
      · simp [hE, h]
      · rcases hfact with ha | ⟨hbne, _⟩
        · simp [hE, ha]
        · exact absurd h hbne
    · have hfact := endCmp_not_lt (a := a) (b := b) (by rw [hE]; simp)
      rcases h with h | h
      · simp [hE, h]
      · rcases hfact with ha | ⟨hbne, _⟩
        · simp [hE, ha]
        · exact absurd h hbne

theorem mergeLoop_head_start : ∀ (l : List SimpleRange) (acc : SimpleRange),
    ∃ e rest, mergeLoop acc l = { start := acc.start, stop := e } :: rest
  | [], acc => ⟨acc.stop, [], rfl⟩
  | b :: rest, acc => by
    rw [mergeLoop]
    cases hm : mergeSR acc b with
    | none => exact ⟨acc.stop, mergeLoop b rest, rfl⟩
    | some m =>
      obtain ⟨e, r2, h⟩ := mergeLoop_head_start rest m
      refine ⟨e, r2, ?_⟩
      show mergeLoop m rest = _
      rw [h, mergeSR_start hm]

theorem mergeLoop_mem_start : ∀ (l : List SimpleRange) (acc sr : SimpleRange),
    sr ∈ mergeLoop acc l → ∃ sr0 ∈ acc :: l, sr0.start = sr.start
  | [], acc, sr, h => by
    simp only [mergeLoop, List.mem_singleton] at h
    exact ⟨acc, by simp, by rw [h]⟩
  | b :: rest, acc, sr, h => by
    rw [mergeLoop] at h
    cases hm : mergeSR acc b with
    | none =>
      rw [hm] at h
      rcases List.mem_cons.mp h with rfl | h2
      · exact ⟨sr, by simp, rfl⟩
      · obtain ⟨sr0, hmem, heq⟩ := mergeLoop_mem_start rest b sr h2
        rcases List.mem_cons.mp hmem with rfl | h3
        · exact ⟨sr0, by simp, heq⟩
        · exact ⟨sr0, by simp [h3], heq⟩
    | some m =>
      rw [hm] at h
      obtain ⟨sr0, hmem, heq⟩ := mergeLoop_mem_start rest m sr h
      rcases List.mem_cons.mp hmem with rfl | h3
      · exact ⟨acc, by simp, by rw [← heq, mergeSR_start hm]⟩
      · exact ⟨sr0, by simp [h3], heq⟩

theorem mergeLoop_pairwise : ∀ (l : List SimpleRange) (acc : SimpleRange),
    (acc :: l).Pairwise (fun a b => a.start ≤ b.start) →
    (mergeLoop acc l).Pairwise (fun a b => a.start ≤ b.start)
  | [], acc, _ => List.pairwise_singleton _ _
  | b :: rest, acc, h => by
    rw [mergeLoop]
    have h1 := List.pairwise_cons.mp h
    have h2 := List.pairwise_cons.mp h1.2
    cases hm : mergeSR acc b with
    | none =>
      rw [List.pairwise_cons]
      refine ⟨?_, mergeLoop_pairwise rest b h1.2⟩
      intro sr hsr
      obtain ⟨sr0, hmem, heq⟩ := mergeLoop_mem_start rest b sr hsr
      rw [← heq]
      exact h1.1 sr0 hmem
    | some m =>
      refine mergeLoop_pairwise rest m ?_
      rw [List.pairwise_cons]
      refine ⟨?_, h2.2⟩
      intro sr hsr
      rw [mergeSR_start hm]
      exact h1.1 sr (List.mem_cons_of_mem b hsr)

theorem mergeLoop_chain : ∀ (l : List SimpleRange) (acc : SimpleRange),
    (mergeLoop acc l).Chain' srGap
  | [], acc => List.chain'_singleton acc
  | b :: rest, acc => by
    rw [mergeLoop]
    cases hm : mergeSR acc b with
    | none =>
      obtain ⟨e, r2, hhead⟩ := mergeLoop_head_start rest b
      rw [List.chain'_cons']
      refine ⟨?_, mergeLoop_chain rest b⟩
      intro y hy
      rw [hhead] at hy
      simp only [List.head?_cons, Option.mem_def, Option.some.injEq] at hy
      subst hy
      have hg := mergeSR_none hm
      exact ⟨hg.1, hg.2⟩
    | some m => exact mergeLoop_chain rest m

theorem mergeLoop_mem_iff : ∀ (l : List SimpleRange) (acc : SimpleRange),
    (acc :: l).Pairwise (fun a b => a.start ≤ b.start) →
    ∀ x, (∃ sr ∈ mergeLoop acc l, srMem x sr) ↔ (srMem x acc ∨ ∃ sr ∈ l, srMem x sr)
  | [], acc, _, x => by simp [mergeLoop]
  | b :: rest, acc, h, x => by
    rw [mergeLoop]
    have h1 := List.pairwise_cons.mp h
    have hab : acc.start ≤ b.start := h1.1 b (by simp)
    cases hm : mergeSR acc b with
    | none =>
      have ih := mergeLoop_mem_iff rest b h1.2 x
      simp only [List.exists_mem_cons_iff, ih]
    | some m =>
      have hpm : (m :: rest).Pairwise (fun a b => a.start ≤ b.start) := by
        rw [List.pairwise_cons]
        refine ⟨?_, (List.pairwise_cons.mp h1.2).2⟩
        intro sr hsr
        rw [mergeSR_start hm]
        exact h1.1 sr (List.mem_cons_of_mem b hsr)
      have ih := mergeLoop_mem_iff rest m hpm x
      rw [ih, mergeSR_mem hm hab x]
      simp only [List.exists_mem_cons_iff]
      tauto

theorem mergeLoop_stop_nil : ∀ (l : List SimpleRange) (acc : SimpleRange),
    (acc.stop = [] ∨ ∃ sr ∈ l, sr.stop = []) →
    ∃ sr ∈ mergeLoop acc l, sr.stop = []
  | [], acc, h => by
    rcases h with h | h
    · exact ⟨acc, by simp [mergeLoop], h⟩
    · simp at h
  | b :: rest, acc, h => by
    rw [mergeLoop]
    cases hm : mergeSR acc b with
    | none =>
      rcases h with h | h
      · exact absurd h (mergeSR_none hm).1
      · rcases List.exists_mem_cons_iff (fun sr => sr.stop = []) b rest |>.mp h with h2 | h2
        · obtain ⟨sr, hmem, hnil⟩ := mergeLoop_stop_nil rest b (Or.inl h2)
          exact ⟨sr, List.mem_cons_of_mem acc hmem, hnil⟩
        · obtain ⟨sr, hmem, hnil⟩ := mergeLoop_stop_nil rest b (Or.inr h2)
          exact ⟨sr, List.mem_cons_of_mem acc hmem, hnil⟩
    | some m =>
      rcases h with h | h
      · exact mergeLoop_stop_nil rest m (Or.inl (mergeSR_stop_nil hm (Or.inl h)))
      · rcases List.exists_mem_cons_iff (fun sr => sr.stop = []) b rest |>.mp h with h2 | h2
        · exact mergeLoop_stop_nil rest m (Or.inl (mergeSR_stop_nil hm (Or.inr h2)))
        · exact mergeLoop_stop_nil rest m (Or.inr h2)

theorem chain_pairwise_disjoint : ∀ l : List SimpleRange,
    l.Chain' srGap → l.Pairwise (fun a b => a.start ≤ b.start) →
    l.Pairwise (fun a b => ∀ x, ¬ (srMem x a ∧ srMem x b))
  | [], _, _ => List.Pairwise.nil
  | a :: l, hc, hp => by
    rw [List.pairwise_cons]
    have hp1 := List.pairwise_cons.mp hp
    refine ⟨?_, chain_pairwise_disjoint l hc.tail hp1.2⟩
    cases l with
    | nil => simp
    | cons c l' =>
      have hgap : srGap a c := (List.chain'_cons.mp hc).1
      intro b hb x ⟨hxa, hxb⟩
      have hcb : c.start ≤ b.start := by
        rcases List.mem_cons.mp hb with rfl | hb2
        · exact le_rfl
        · exact (List.pairwise_cons.mp hp1.2).1 b hb2
      have hxa2 : x < a.stop := by
        rcases hxa.2 with h | h
        · exact absurd h hgap.1
        · exact h
      have : x < b.start := lt_of_lt_of_le (lt_trans hxa2 hgap.2) hcb
      exact absurd hxb.1 (not_le_of_lt this)

theorem mergeSimpleRanges_spec (srs : List SimpleRange) :
    (mergeSimpleRanges srs).Pairwise (fun a b => a.start ≤ b.start) ∧
    (mergeSimpleRanges srs).Pairwise (fun a b => ∀ x, ¬ (srMem x a ∧ srMem x b)) ∧
    (∀ x, (∃ sr ∈ mergeSimpleRanges srs, srMem x sr) ↔ ∃ sr ∈ srs, srMem x sr) ∧
    ((∃ sr ∈ srs, sr.stop = []) → ∃ sr ∈ mergeSimpleRanges srs, sr.stop = []) := by
  unfold mergeSimpleRanges
  cases hs : sortSimpleRanges srs with
  | nil =>
    have hperm := sortSimpleRanges_perm srs
    rw [hs] at hperm
    have hnil : srs = [] := List.Perm.eq_nil hperm.symm
    subst hnil
    simp
  | cons a rest =>
    have hperm := sortSimpleRanges_perm srs
    rw [hs] at hperm
    have hsorted := sortSimpleRanges_pairwise srs
    rw [hs] at hsorted
    refine ⟨mergeLoop_pairwise rest a hsorted, ?_, ?_, ?_⟩
    · exact chain_pairwise_disjoint _ (mergeLoop_chain rest a)
        (mergeLoop_pairwise rest a hsorted)
    · intro x
      rw [mergeLoop_mem_iff rest a hsorted x]
      have hiff : (∃ sr ∈ a :: rest, srMem x sr) ↔ ∃ sr ∈ srs, srMem x sr :=
        ⟨fun ⟨sr, h1, h2⟩ => ⟨sr, hperm.subset h1, h2⟩,
          fun ⟨sr, h1, h2⟩ => ⟨sr, hperm.symm.subset h1, h2⟩⟩
      rw [← hiff]
      simp [List.exists_mem_cons_iff]
    · rintro ⟨sr, hmem, hnil⟩
      have hmem2 : sr ∈ a :: rest := hperm.symm.subset hmem
      rcases List.mem_cons.mp hmem2 with rfl | h2
      · exact mergeLoop_stop_nil rest sr (Or.inl hnil)
      · exact mergeLoop_stop_nil rest a (Or.inr ⟨sr, h2, hnil⟩)

theorem srMem_rowRangeToSimple (x : keyType) (rr : RowRange) :
    srMem x (rowRangeToSimple rr) ↔ rrMem x rr := by
  obtain ⟨sk, ek⟩ := rr
  cases sk <;> cases ek <;>
    simp [srMem, rrMem, rowRangeToSimple, KeyOrder.append_zero_le_iff,
      KeyOrder.lt_append_zero_iff, List.nil_le]

/-- C3: the merged range list produced before a scan is sorted by start key
and pairwise disjoint; its point-set union under the byte-lexicographic
order equals the union of the inputs, where an explicit key k contributes
exactly the half-open interval [k, k·0) = { k } and each row range its
open/closed/unbounded endpoint semantics; and a range with an unbounded
(empty) end survives merging with bounded ones. -/
theorem mergeRowRanges_spec (explicit : List keyType) (rrs : List RowRange) :
    (mergeRowRanges explicit rrs).Pairwise (fun a b => a.start ≤ b.start) ∧
    (mergeRowRanges explicit rrs).Pairwise (fun a b => ∀ x, ¬ (srMem x a ∧ srMem x b)) ∧
    (∀ x, (∃ sr ∈ mergeRowRanges explicit rrs, srMem x sr) ↔
      ((∃ k ∈ explicit, x = k) ∨ ∃ rr ∈ rrs, rrMem x rr)) ∧
    ((∃ rr ∈ rrs, (rowRangeToSimple rr).stop = []) →
      ∃ sr ∈ mergeRowRanges explicit rrs, sr.stop = []) := by
  obtain ⟨h1, h2, h3, h4⟩ := mergeSimpleRanges_spec
    (explicit.map (fun k => { start := k, stop := k ++ [0] }) ++ rrs.map rowRangeToSimple)
  refine ⟨h1, h2, ?_, ?_⟩
  · intro x
    rw [mergeRowRanges, h3 x]
    constructor
    · rintro ⟨sr, hmem, hx⟩
      rcases List.mem_append.mp hmem with hmem | hmem
      · obtain ⟨k, hk, rfl⟩ := List.mem_map.mp hmem
        left
        refine ⟨k, hk, ?_⟩
        rcases hx with ⟨hge, hnil | hlt⟩
        · exact absurd hnil (by simp)
        · exact (KeyOrder.mem_key_range_iff k x).mp ⟨hge, hlt⟩
      · obtain ⟨rr, hrr, rfl⟩ := List.mem_map.mp hmem
        right
        exact ⟨rr, hrr, (srMem_rowRangeToSimple x rr).mp hx⟩
    · rintro (⟨k, hk, rfl⟩ | ⟨rr, hrr, hx⟩)
      · exact ⟨{ start := x, stop := x ++ [0] },
          List.mem_append.mpr (Or.inl (List.mem_map.mpr ⟨x, hk, rfl⟩)),
          le_rfl, Or.inr ((KeyOrder.lt_append_zero_iff x x).mpr le_rfl)⟩
      · exact ⟨rowRangeToSimple rr,
          List.mem_append.mpr (Or.inr (List.mem_map.mpr ⟨rr, hrr, rfl⟩)),
          (srMem_rowRangeToSimple x rr).mpr hx⟩
  · rintro ⟨rr, hrr, hnil⟩
    rw [mergeRowRanges]
    exact h4 ⟨rowRangeToSimple rr,
      List.mem_append.mpr (Or.inr (List.mem_map.mpr ⟨rr, hrr, rfl⟩)), hnil⟩

theorem insertCellByDescTS_perm (c : Cell) :
    ∀ cs : List Cell, (insertCellByDescTS c cs).Perm (c :: cs)
  | [] => List.Perm.refl _
  | d :: ds => by
    rw [insertCellByDescTS]
    split
    · exact List.Perm.refl _
    · exact ((insertCellByDescTS_perm c ds).cons d).trans (List.Perm.swap c d ds)

theorem sortByDescTS_perm : ∀ cs : List Cell, (sortByDescTS cs).Perm cs
  | [] => List.Perm.refl _
  | c :: cs =>
    (insertCellByDescTS_perm c (sortByDescTS cs)).trans ((sortByDescTS_perm cs).cons c)

theorem insertCellByDescTS_sorted (c : Cell) :
    ∀ cs : List Cell,
      cs.Pairwise (fun a b => b.timestampMicros ≤ a.timestampMicros) →
      (insertCellByDescTS c cs).Pairwise (fun a b => b.timestampMicros ≤ a.timestampMicros)
  | [], _ => List.pairwise_singleton _ _
  | d :: ds, h => by
    rw [insertCellByDescTS]
    split
    · rw [List.pairwise_cons]
      refine ⟨fun x hx => ?_, h⟩
      rcases List.mem_cons.mp hx with rfl | hx2
      · omega
      · have := (List.pairwise_cons.mp h).1 x hx2
        omega
    · rw [List.pairwise_cons]
      refine ⟨fun x hx => ?_, insertCellByDescTS_sorted c ds (List.pairwise_cons.mp h).2⟩
      rcases List.mem_cons.mp ((insertCellByDescTS_perm c ds).mem_iff.mp hx) with rfl | hx2
      · omega
      · exact (List.pairwise_cons.mp h).1 x hx2

theorem sortByDescTS_sorted :
    ∀ cs : List Cell,
      (sortByDescTS cs).Pairwise (fun a b => b.timestampMicros ≤ a.timestampMicros)
  | [] => List.Pairwise.nil
  | c :: cs => insertCellByDescTS_sorted c (sortByDescTS cs) (sortByDescTS_sorted cs)

theorem tsDistinct_symm :
    Symmetric (fun a b : Cell => a.timestampMicros ≠ b.timestampMicros) :=
  fun _ _ hab hba => hab hba.symm

theorem tsDistinct_of_strictDesc {cs : List Cell} (h : cellsStrictDesc cs) : tsDistinct cs :=
  h.imp (fun hlt => by omega)

theorem strictDesc_of_sorted_distinct {cs : List Cell}
    (h1 : cs.Pairwise (fun a b => b.timestampMicros ≤ a.timestampMicros))
    (h2 : tsDistinct cs) : cellsStrictDesc cs :=
  (h1.and h2).imp (fun h => by omega)

theorem replaceCellByTS_map_ts (nc : Cell) :
    ∀ cs cs' : List Cell, replaceCellByTS cs nc = some cs' →
      cs'.map (fun c => c.timestampMicros) = cs.map (fun c => c.timestampMicros)
  | [], _, h => by simp [replaceCellByTS] at h
  | c :: cs, cs', h => by
    rw [replaceCellByTS] at h
    split at h
    · rename_i heq
      cases h
      simp [heq]
    · revert h
      split
      · rename_i cs'' hrep
        intro h
        cases h
        simp [replaceCellByTS_map_ts nc cs cs'' hrep]
      · intro h
        cases h

theorem tsDistinct_of_map_ts_eq {cs cs' : List Cell}
    (h : cs'.map (fun c => c.timestampMicros) = cs.map (fun c => c.timestampMicros))
    (hd : tsDistinct cs) : tsDistinct cs' := by
  rw [tsDistinct, ← List.pairwise_map (f := fun c : Cell => c.timestampMicros)]
  rw [tsDistinct, ← List.pairwise_map (f := fun c : Cell => c.timestampMicros)] at hd
  rw [h]
  exact hd

theorem replaceCellByTS_none_ts_ne (nc : Cell) :
    ∀ cs : List Cell, replaceCellByTS cs nc = none →
      ∀ c ∈ cs, c.timestampMicros ≠ nc.timestampMicros
  | [], _, c, hc => absurd hc (List.not_mem_nil c)
  | d :: ds, h, c, hc => by
    rw [replaceCellByTS] at h
    split at h
    · cases h
    · rename_i hne
      rcases List.mem_cons.mp hc with rfl | hc2
      · exact hne
      · revert h
        split
        · intro h
          cases h
        · rename_i hrep
          intro _
          exact replaceCellByTS_none_ts_ne nc ds hrep c hc2

theorem appendOrReplaceCell_strictDesc (cs : List Cell) (nc : Cell)
    (h : cellsStrictDesc cs) : cellsStrictDesc (appendOrReplaceCell cs nc) := by
  rw [appendOrReplaceCell]
  cases hrep : replaceCellByTS cs nc with
  | some cs' =>
    have hd : tsDistinct cs' :=
      tsDistinct_of_map_ts_eq (replaceCellByTS_map_ts nc cs cs' hrep)
        (tsDistinct_of_strictDesc h)
    have hd2 : tsDistinct (sortByDescTS cs') :=
      (List.Perm.pairwise_iff (fun hxy => tsDistinct_symm hxy)
        (sortByDescTS_perm cs')).mpr hd
    exact strictDesc_of_sorted_distinct (sortByDescTS_sorted cs') hd2
  | none =>
    have hd : tsDistinct (cs ++ [nc]) := ?_
    · have hd2 : tsDistinct (sortByDescTS (cs ++ [nc])) :=
        (List.Perm.pairwise_iff (fun hxy => tsDistinct_symm hxy)
          (sortByDescTS_perm _)).mpr hd
      exact strictDesc_of_sorted_distinct (sortByDescTS_sorted _) hd2
    rw [tsDistinct, List.pairwise_append]
    refine ⟨tsDistinct_of_strictDesc h, List.pairwise_singleton _ _, ?_⟩
    intro a ha b hb
    rw [List.mem_singleton] at hb
    rw [hb]
    exact replaceCellByTS_none_ts_ne nc cs hrep a ha

theorem updateColumns_cells_prop (P : List Cell → Prop) (q : Bytes)
    (t : List Cell → List Cell) (hP : ∀ cs, P cs → P (t cs)) (hnil : P []) :
    ∀ cols : List Column, (∀ c ∈ cols, P c.cells) →
      ∀ c ∈ updateColumns q (updColAt t) cols, P c.cells
  | [], _, c, hc => by
    rw [updateColumns] at hc
    rcases List.mem_singleton.mp hc with rfl
    exact hP [] hnil
  | d :: ds, h, c, hc => by
    rw [updateColumns] at hc
    split at hc
    · rcases List.mem_cons.mp hc with rfl | hc2
      · exact hP d.cells (h d (by simp))
      · exact h c (by simp [hc2])
    · rcases List.mem_cons.mp hc with rfl | hc2
      · exact h c (by simp)
      · exact updateColumns_cells_prop P q t hP hnil ds
          (fun x hx => h x (by simp [hx])) c hc2

theorem updateFamilies_prop (Q : Family → Prop) (name : String) (u : Family → Family)
    (hu : ∀ f, Q f → Q (u f)) (hempty : Q (u { name := name, columns := [] })) :
    ∀ fams : List Family, (∀ f ∈ fams, Q f) → ∀ f ∈ updateFamilies name u fams, Q f
  | [], _, f, hf => by
    rw [updateFamilies] at hf
    rcases List.mem_singleton.mp hf with rfl
    exact hempty
  | g :: gs, h, f, hf => by
    rw [updateFamilies] at hf
    split at hf
    · rcases List.mem_cons.mp hf with rfl | hf2
      · exact hu g (h g (by simp))
      · exact h f (by simp [hf2])
    · rcases List.mem_cons.mp hf with rfl | hf2
      · exact h f (by simp)
      · exact updateFamilies_prop Q name u hu hempty gs
          (fun x hx => h x (by simp [hx])) f hf2

theorem modifyCellsAt_rowCellsDesc (r : Row) (fam : String) (q : Bytes)
    (t : List Cell → List Cell)
    (ht : ∀ cs, cellsStrictDesc cs → cellsStrictDesc (t cs))
    (h : rowCellsDesc r) : rowCellsDesc (modifyCellsAt r fam q t) := by
  intro f hf c hc
  have hfam := updateFamilies_prop
    (fun f => ∀ c ∈ f.columns, cellsStrictDesc c.cells) fam (updFamAt q t)
    (fun g hg => updateColumns_cells_prop cellsStrictDesc q t ht List.Pairwise.nil
      g.columns hg)
    (updateColumns_cells_prop cellsStrictDesc q t ht List.Pairwise.nil [] (by simp))
    r.families h f hf
  exact hfam c hc

theorem take_append_drop_sublist (si ei : Nat) (cs : List Cell) (h : si ≤ ei) :
    List.Sublist (cs.take si ++ cs.drop ei) cs := by
  have hdrop : List.Sublist (cs.drop ei) (cs.drop si) := by
    have heq : cs.drop ei = (cs.drop si).drop (ei - si) := by
      rw [List.drop_drop]
      congr 1
      omega
    rw [heq]
    exact List.drop_sublist _ _
  have h1 : List.Sublist (cs.take si ++ cs.drop ei) (cs.take si ++ cs.drop si) :=
    hdrop.append_left (cs.take si)
  have h2 : List.Sublist (cs.take si ++ cs.drop si) cs := by
    rw [List.take_append_drop]
  exact h1.trans h2

theorem deleteTimeRangeCells_sublist (cs : List Cell) (tsr : TimeRange) :
    List.Sublist (deleteTimeRangeCells cs tsr) cs := by
  simp only [deleteTimeRangeCells]
  generalize (if tsr.startTimestampMicros > 0 then
      searchCells cs (fun c => decide (c.timestampMicros < tsr.startTimestampMicros))
    else cs.length) = ei
  generalize (if tsr.endTimestampMicros > 0 then
      searchCells cs (fun c => decide (c.timestampMicros < tsr.endTimestampMicros))
    else 0) = si
  split
  · rename_i hlt
    exact take_append_drop_sublist si ei cs (le_of_lt hlt)
  · exact List.Sublist.refl cs

theorem clearColumnsOfFamily_prop (Q : Family → Prop) (name : String)
    (hclear : ∀ f, Q f → Q { f with columns := [] }) :
    ∀ fams : List Family, (∀ f ∈ fams, Q f) →
      ∀ f ∈ clearColumnsOfFamily name fams, Q f
  | [], _, f, hf => absurd hf (List.not_mem_nil f)
  | g :: gs, h, f, hf => by
    rw [clearColumnsOfFamily] at hf
    split at hf
    · rcases List.mem_cons.mp hf with rfl | hf2
      · exact hclear g (h g (by simp))
      · exact h f (by simp [hf2])
    · rcases List.mem_cons.mp hf with rfl | hf2
      · exact h f (by simp)
      · exact clearColumnsOfFamily_prop Q name hclear gs
          (fun x hx => h x (by simp [hx])) f hf2

theorem applyMutation_rowCellsDesc (tbl : FamMap) (r : Row) (now : Int) (m : Mutation)
    (r' : Row) (hm : applyMutation tbl r now m = .ok r') (h : rowCellsDesc r) :
    rowCellsDesc r' := by
  cases m with
  | setCell fam q ts v =>
    simp only [applyMutation] at hm
    split at hm
    · cases hm
    · split at hm
      · split at hm
        · cases hm
        · cases hm
          exact modifyCellsAt_rowCellsDesc r fam q _
            (fun cs hcs => appendOrReplaceCell_strictDesc cs _ hcs) h
      · split at hm
        · cases hm
        · cases hm
          exact modifyCellsAt_rowCellsDesc r fam q _
            (fun cs hcs => appendOrReplaceCell_strictDesc cs _ hcs) h
  | deleteFromColumn fam q tr =>
    simp only [applyMutation] at hm
    split at hm
    · cases hm
    · split at hm
      · cases hm
        exact h
      · split at hm
        · cases hm
          exact h
        · split at hm
          · split at hm
            · cases hm
            · split at hm
              · cases hm
              · split at hm
                · cases hm
                · cases hm
                  exact modifyCellsAt_rowCellsDesc r fam q _
                    (fun cs hcs =>
                      List.Pairwise.sublist (deleteTimeRangeCells_sublist cs _) hcs) h
          · cases hm
            exact modifyCellsAt_rowCellsDesc r fam q _
              (fun _ _ => List.Pairwise.nil) h
  | deleteFromRow =>
    simp only [applyMutation] at hm
    cases hm
    intro f hf
    exact absurd hf (List.not_mem_nil f)
  | deleteFromFamily fam =>
    simp only [applyMutation] at hm
    cases hm
    intro f hf
    exact clearColumnsOfFamily_prop
      (fun f => ∀ c ∈ f.columns, cellsStrictDesc c.cells) fam
      (fun g _ c hc => absurd hc (List.not_mem_nil c))
      r.families h f hf
  | unknownType =>
    simp only [applyMutation] at hm
    cases hm

theorem applyMutations_rowCellsDesc (tbl : FamMap) :
    ∀ (muts : List Mutation) (r : Row) (now : Int), rowCellsDesc r →
      rowCellsDesc (applyMutations tbl r muts now).1
  | [], r, now, h => h
  | m :: rest, r, now, h => by
    rw [applyMutations]
    cases hm : applyMutation tbl r now m with
    | error e => exact h
    | ok r' =>
      exact applyMutations_rowCellsDesc tbl rest r' now
        (applyMutation_rowCellsDesc tbl r now m r' hm h)

theorem insertColByQual_perm (c : Column) :
    ∀ cols : List Column, (insertColByQual c cols).Perm (c :: cols)
  | [] => List.Perm.refl _
  | d :: ds => by
    rw [insertColByQual]
    split
    · exact List.Perm.refl _
    · exact ((insertColByQual_perm c ds).cons d).trans (List.Perm.swap c d ds)

theorem sortColsByQual_perm : ∀ cols : List Column, (sortColsByQual cols).Perm cols
  | [] => List.Perm.refl _
  | c :: cs =>
    (insertColByQual_perm c (sortColsByQual cs)).trans ((sortColsByQual_perm cs).cons c)

theorem scrubFam_columns (f : Family)
    (h : ∀ c ∈ f.columns, cellsStrictDesc c.cells) :
    ∀ c ∈ (scrubFam f).columns, c.cells ≠ [] ∧ cellsStrictDesc c.cells := by
  intro c hc
  have hc2 : c ∈ f.columns.filter (fun c => !c.cells.isEmpty) :=
    (sortColsByQual_perm _).mem_iff.mp hc
  have hmem := (List.mem_filter.mp hc2).1
  have hne := (List.mem_filter.mp hc2).2
  refine ⟨?_, h c hmem⟩
  intro hnil
  rw [hnil] at hne
  simp at hne

theorem scrubRow_wellFormed (r : Row) (cols : FamMap) (h : rowCellsDesc r) :
    wellFormedRow (scrubRow r cols) := by
  intro f hf
  rw [scrubRow] at hf
  obtain ⟨g, hg, heq⟩ := List.mem_filterMap.mp hf
  by_cases hdef : famDefined cols g.name = true
  · rw [if_pos hdef] at heq
    have heq2 : (if (scrubFam g).columns.isEmpty = true then none
        else some (scrubFam g)) = some f := heq
    by_cases hempty : (scrubFam g).columns.isEmpty = true
    · rw [if_pos hempty] at heq2
      cases heq2
    · rw [if_neg hempty] at heq2
      cases heq2
      constructor
      · intro hnil
        rw [hnil] at hempty
        simp at hempty
      · exact scrubFam_columns g (h g hg)
  · rw [if_neg hdef] at heq
    cases heq

theorem rowCellsDesc_of_wellFormed {r : Row} (h : wellFormedRow r) : rowCellsDesc r :=
  fun f hf c hc => ((h f hf).2 c hc).2

theorem mem_storeDelete {s : Store} {k : keyType} {r : Row}
    (h : r ∈ storeDelete s k) : r ∈ s :=
  (List.mem_filter.mp h).1

theorem mem_storeReplaceOrInsert {r' r : Row} :
    ∀ s : Store, r' ∈ storeReplaceOrInsert s r → r' ∈ s ∨ r' = r
  | [], h => by
    rw [storeReplaceOrInsert] at h
    exact Or.inr (List.mem_singleton.mp h)
  | x :: rest, h => by
    rw [storeReplaceOrInsert] at h
    split at h
    · rcases List.mem_cons.mp h with rfl | h2
      · exact Or.inr rfl
      · exact Or.inl (by simp [h2])
    · rcases List.mem_cons.mp h with rfl | h2
      · exact Or.inl (by simp)
      · rcases mem_storeReplaceOrInsert rest h2 with h3 | h3
        · exact Or.inl (by simp [h3])
        · exact Or.inr h3

theorem updateRow_wellFormedStore (cols : FamMap) (s : Store) (r : Row)
    (hs : wellFormedStore s) (hr : rowCellsDesc r) :
    wellFormedStore (updateRow cols s r) := by
  intro x hx
  rw [updateRow] at hx
  split at hx
  · exact hs x (mem_storeDelete hx)
  · rcases mem_storeReplaceOrInsert s hx with h2 | h2
    · exact hs x h2
    · rw [h2]
      exact scrubRow_wellFormed r cols hr

theorem getOrCreateRow_desc (s : Store) (key : keyType) (hs : wellFormedStore s) :
    rowCellsDesc (getOrCreateRow s key) := by
  rw [getOrCreateRow]
  cases hg : storeGet s key with
  | some r =>
    exact rowCellsDesc_of_wellFormed (hs r (List.mem_of_find?_eq_some hg))
  | none =>
    intro f hf
    exact absurd hf (List.not_mem_nil f)

theorem MutateRow_wellFormedStore (cols : FamMap) (s : Store) (key : keyType)
    (muts : List Mutation) (now : Int) (hs : wellFormedStore s) :
    wellFormedStore (MutateRow cols s key muts now).1 := by
  rw [MutateRow]
  cases happ : applyMutations cols (getOrCreateRow s key) muts now with
  | mk r' oe =>
    cases oe with
    | some e => exact hs
    | none =>
      have hr' : rowCellsDesc r' := by
        have := applyMutations_rowCellsDesc cols muts (getOrCreateRow s key) now
          (getOrCreateRow_desc s key hs)
        rw [happ] at this
        exact this
      exact updateRow_wellFormedStore cols s r' hs hr'

theorem MutateRowsEntry_wellFormedStore (cols : FamMap) (s : Store) (key : keyType)
    (muts : List Mutation) (now : Int) (hs : wellFormedStore s) :
    wellFormedStore (MutateRowsEntry cols s key muts now).1 := by
  rw [MutateRowsEntry]
  cases happ : applyMutations cols (getOrCreateRow s key) muts now with
  | mk r' oe =>
    have hr' : rowCellsDesc r' := by
      have := applyMutations_rowCellsDesc cols muts (getOrCreateRow s key) now
        (getOrCreateRow_desc s key hs)
      rw [happ] at this
      exact this
    cases oe with
    | some e => exact updateRow_wellFormedStore cols s r' hs hr'
    | none => exact updateRow_wellFormedStore cols s r' hs hr'

theorem setResultCell_rowCellsDesc (res : Row) (fam : String) (q : Bytes) (c : Cell)
    (h : rowCellsDesc res) : rowCellsDesc (setResultCell res fam q c) :=
  modifyCellsAt_rowCellsDesc res fam q _
    (fun _ _ => List.pairwise_singleton _ c) h

theorem applyRMWRule_rowCellsDesc (cols : FamMap) (now : Int) (r res : Row)
    (rule : RMWRule) (r' res' : Row)
    (hok : applyRMWRule cols now r res rule = .ok (r', res'))
    (hr : rowCellsDesc r) (hres : rowCellsDesc res) :
    rowCellsDesc r' ∧ rowCellsDesc res' := by
  cases rule with
  | appendValue famName qual appendVal =>
    simp only [applyRMWRule] at hok
    split at hok
    · cases hok
    · cases hok
      exact ⟨modifyCellsAt_rowCellsDesc r famName qual _
          (fun cs hcs => appendOrReplaceCell_strictDesc cs _ hcs) hr,
        setResultCell_rowCellsDesc res famName qual _ hres⟩
  | incrementAmount famName qual amount =>
    simp only [applyRMWRule] at hok
    split at hok
    · cases hok
    · split at hok
      · cases hok
        exact ⟨modifyCellsAt_rowCellsDesc r famName qual _
            (fun cs hcs => appendOrReplaceCell_strictDesc cs _ hcs) hr,
          setResultCell_rowCellsDesc res famName qual _ hres⟩
      · split at hok
        · cases hok
          exact ⟨modifyCellsAt_rowCellsDesc r famName qual _
              (fun cs hcs => appendOrReplaceCell_strictDesc cs _ hcs) hr,
            setResultCell_rowCellsDesc res famName qual _ hres⟩
        · split at hok
          · cases hok
          · cases hok
            exact ⟨modifyCellsAt_rowCellsDesc r famName qual _
                (fun cs hcs => appendOrReplaceCell_strictDesc cs _ hcs) hr,
              setResultCell_rowCellsDesc res famName qual _ hres⟩

theorem rmwRules_rowCellsDesc (cols : FamMap) (now : Int) :
    ∀ (rules : List RMWRule) (r res r' res' : Row),
      rmwRules cols now (r, res) rules = .ok (r', res') →
      rowCellsDesc r → rowCellsDesc res → rowCellsDesc r' ∧ rowCellsDesc res'
  | [], r, res, r', res', hok, hr, hres => by
    rw [rmwRules] at hok
    cases hok
    exact ⟨hr, hres⟩
  | rule :: rest, r, res, r', res', hok, hr, hres => by
    rw [rmwRules] at hok
    cases happ : applyRMWRule cols now r res rule with
    | error e =>
      rw [happ] at hok
      cases hok
    | ok rr =>
      rw [happ] at hok
      obtain ⟨hr2, hres2⟩ := applyRMWRule_rowCellsDesc cols now r res rule rr.1 rr.2
        (by rw [happ]) hr hres
      exact rmwRules_rowCellsDesc cols now rest rr.1 rr.2 r' res' hok hr2 hres2

theorem ReadModifyWriteRow_wellFormed (cols : FamMap) (s : Store) (key : keyType)
    (rules : List RMWRule) (now : Int) (hs : wellFormedStore s)
    (s' : Store) (res : Row)
    (hok : ReadModifyWriteRow cols s key rules now = .ok (s', res)) :
    wellFormedStore s' ∧ wellFormedRow res := by
  rw [ReadModifyWriteRow] at hok
  cases hrr : rmwRules cols now (getOrCreateRow s key,
      { key := key, families := [] }) rules with
  | error e =>
    rw [hrr] at hok
    cases hok
  | ok rr =>
    rw [hrr] at hok
    cases hok
    obtain ⟨hr2, hres2⟩ := rmwRules_rowCellsDesc cols now rules
      (getOrCreateRow s key) { key := key, families := [] } rr.1 rr.2
      (by rw [hrr]) (getOrCreateRow_desc s key hs)
      (fun f hf => absurd hf (List.not_mem_nil f))
    refine ⟨?_, scrubRow_wellFormed rr.2 cols hres2⟩
    intro x hx
    rcases mem_storeReplaceOrInsert s hx with h2 | h2
    · exact hs x h2
    · rw [h2]
      exact scrubRow_wellFormed rr.1 cols hr2

mutual

theorem applyGC_sublist (cells : List Cell) (now : Int) (rule : GcRule) :
    List.Sublist (applyGC cells now rule) cells := by
  cases rule with
  | maxNumVersions n =>
    simp only [applyGC]
    split
    · exact List.take_sublist _ _
    · exact List.Sublist.refl _
  | maxAge seconds nanos =>
    simp only [applyGC]
    exact List.take_sublist _ _
  | union rules =>
    simp only [applyGC]
    exact applyGCUnion_sublist cells now rules
  | intersection rules =>
    simp only [applyGC]
    exact List.Sublist.refl _
termination_by sizeOf rule
decreasing_by
  all_goals simp_wf

theorem applyGCUnion_sublist (cells : List Cell) (now : Int) (rules : List GcRule) :
    List.Sublist (applyGCUnion cells now rules) cells := by
  cases rules with
  | nil =>
    simp only [applyGCUnion]
    exact List.Sublist.refl _
  | cons rule rest =>
    simp only [applyGCUnion]
    exact (applyGCUnion_sublist (applyGC cells now rule) now rest).trans
      (applyGC_sublist cells now rule)
termination_by sizeOf rules
decreasing_by
  all_goals simp_wf
  all_goals omega

end

theorem gcRow_rowCellsDesc (cols : FamMap) (now : Int) (r : Row) (h : rowCellsDesc r) :
    rowCellsDesc (gcRow cols now r) := by
  intro f hf c hc
  rw [gcRow] at hf
  obtain ⟨g, hg, heq⟩ := List.mem_map.mp hf
  revert heq
  split
  · intro heq
    cases heq
    exact h _ hg c hc
  · rename_i rule hrule
    intro heq
    cases heq
    obtain ⟨d, hd, hceq⟩ := List.mem_map.mp hc
    cases hceq
    exact List.Pairwise.sublist (applyGC_sublist d.cells now rule) (h _ hg d hd)

theorem gcRow_unchanged (cols : FamMap) (now : Int) (r : Row)
    (h : gcRowChanged cols now r = false) : gcRow cols now r = r := by
  rw [gcRowChanged, List.any_eq_false] at h
  rw [gcRow]
  have hall : ∀ f ∈ r.families,
      (match famRule cols f.name with
        | none => f
        | some rule => { f with columns := f.columns.map (fun c =>
            { c with cells := applyGC c.cells now rule }) }) = f := by
    intro f hf
    have hfq := h f hf
    cases hrule : famRule cols f.name with
    | none => rfl
    | some rule =>
      rw [hrule] at hfq
      rw [Bool.not_eq_true, List.any_eq_false] at hfq
      have hcc : ∀ c ∈ f.columns,
          ({ c with cells := applyGC c.cells now rule } : Column) = c := by
        intro c hc
        have hne := hfq c hc
        have hne2 : ¬ (c.cells.length ≠ (applyGC c.cells now rule).length) :=
          fun hx => hne (decide_eq_true hx)
        have hlen : (applyGC c.cells now rule).length = c.cells.length := by omega
        have hgc := (applyGC_sublist c.cells now rule).eq_of_length hlen
        rw [hgc]
      have hcols : f.columns.map (fun c =>
          { c with cells := applyGC c.cells now rule }) = f.columns :=
        (List.map_congr_left (fun c hc => show _ = id c from hcc c hc)).trans
          (List.map_id _)
      show ({ f with columns := f.columns.map (fun c =>
          { c with cells := applyGC c.cells now rule }) } : Family) = f
      rw [hcols]
  have hmap : r.families.map (fun f =>
      match famRule cols f.name with
      | none => f
      | some rule => { f with columns := f.columns.map (fun c =>
          { c with cells := applyGC c.cells now rule }) }) = r.families :=
    (List.map_congr_left (fun f hf => show _ = id f from hall f hf)).trans
      (List.map_id _)
  rw [hmap]

theorem gcPass_wellFormedStore (cols : FamMap) (now : Int) (s : Store)
    (hs : wellFormedStore s) : wellFormedStore (gcPass cols now s) := by
  intro x hx
  rw [gcPass] at hx
  obtain ⟨r, hr, heq⟩ := List.mem_map.mp hx
  by_cases hch : gcRowChanged cols now r = true
  · rw [if_pos hch] at heq
    rw [← heq]
    exact scrubRow_wellFormed _ cols (gcRow_rowCellsDesc cols now r
      (rowCellsDesc_of_wellFormed (hs r hr)))
  · rw [if_neg hch] at heq
    have hch' : gcRowChanged cols now r = false := by
      cases hhh : gcRowChanged cols now r
      · rfl
      · exact absurd hhh hch
    rw [← heq, gcRow_unchanged cols now r hch']
    exact hs r hr

/-- C8: starting from a store whose rows are all well-formed, every completed
mutation batch (MutateRow, and each MutateRows entry), every successful
read-modify-write, and every GC pass leaves every row stored in the table
well-formed — each family holds at least one column, each column at least one
cell, and each column's cells are strictly descending by timestamp, so no
two cells share a timestamp — and the row a read-modify-write returns is
well-formed as well. -/
theorem mutations_preserve_wellFormed (cols : FamMap) (s : Store) (key : keyType)
    (muts : List Mutation) (rules : List RMWRule) (now : Int)
    (hs : wellFormedStore s) :
    wellFormedStore (MutateRow cols s key muts now).1 ∧
    wellFormedStore (MutateRowsEntry cols s key muts now).1 ∧
    (∀ s' res, ReadModifyWriteRow cols s key rules now = .ok (s', res) →
      wellFormedStore s' ∧ wellFormedRow res) ∧
    wellFormedStore (gcPass cols now s) :=
  ⟨MutateRow_wellFormedStore cols s key muts now hs,
   MutateRowsEntry_wellFormedStore cols s key muts now hs,
   fun s' res hok => ReadModifyWriteRow_wellFormed cols s key rules now hs s' res hok,
   gcPass_wellFormedStore cols now s hs⟩

/-- Witness for C8: the invariant hypothesis holds at a concrete one-row
store, and the theorem applies to it with a concrete set-cell batch,
append-value rule, and clock. -/
theorem mutations_preserve_wellFormed_witness :
    wellFormedStore [c8Row] ∧
    (wellFormedStore (MutateRow c8Cols [c8Row] [114]
        [.setCell "cf" [99] 3000 [3]] 5000000).1 ∧
      wellFormedStore (MutateRowsEntry c8Cols [c8Row] [114]
        [.setCell "cf" [99] 3000 [3]] 5000000).1 ∧
      (∀ s' res, ReadModifyWriteRow c8Cols [c8Row] [114]
          [.appendValue "cf" [99] [4]] 5000000 = .ok (s', res) →
        wellFormedStore s' ∧ wellFormedRow res) ∧
      wellFormedStore (gcPass c8Cols 5000000 [c8Row])) := by
  have hwf : wellFormedStore [c8Row] := by
    intro r hr
    rcases List.mem_singleton.mp hr with rfl
    intro f hf
    simp only [c8Row] at hf
    rcases List.mem_singleton.mp hf with rfl
    refine ⟨by simp [c8Fam], ?_⟩
    intro c hc
    simp only [c8Fam] at hc
    rcases List.mem_singleton.mp hc with rfl
    refine ⟨by simp [c8Col], ?_⟩
    simp only [c8Col]
    rw [cellsStrictDesc, List.pairwise_cons]
    refine ⟨?_, List.pairwise_singleton _ _⟩
    intro d hd
    rcases List.mem_singleton.mp hd with rfl
    decide
  exact ⟨hwf, mutations_preserve_wellFormed c8Cols [c8Row] [114]
    [.setCell "cf" [99] 3000 [3]] [.appendValue "cf" [99] [4]] 5000000 hwf⟩

end Bttest
